import Mathlib

/-!
# Pooled hash table of `hashset.go` and shapes of `shape.go`

A shallow embedding of `HashSet` (file `hashset.go`) and of the methods `Order`
and `Point` of `Shape` (file `shape.go`), and the properties of their
operations.

Representation of the hash table.

* A Go `interface{}` value is an `Option α`; `none` is `nil`.
* A `*HashSetBin` is the list of the bins reached from it along `next`; the nil
  pointer is the empty list.  The bins of one chain are distinct cells, chains
  do not share cells with each other or with the pool.
* `map[HashValue]*HashSetBin` is an association list with distinct keys
  (`AList`): `lookup` reads an entry, `insert` assigns one, `erase` is `delete`.
  A key may be present with the nil chain, as in Go.
* `entries` is a Go `uint` of 64 bits, a natural number below `2 ^ 64`.  Both
  `entries++` and `entries--` wrap around as the machine operations do
  (`uintInc`, `uintDec`).
* The callbacks `eql`, `trans` and the filter function are pure functions.
-/

namespace Physics

/-- Hash values (`type HashValue uintptr`). -/
abbrev HashValue := Nat

/-- Largest value of a Go `uint` (64-bit platforms). -/
def maxUint : Nat := 2 ^ 64 - 1

/-- Decrement of a `uint` (`set.entries--`): wraps around at zero.  On the
range of `uint` this is `(n + (2 ^ 64 - 1)) % 2 ^ 64`. -/
def uintDec (n : Nat) : Nat := if n = 0 then maxUint else n - 1

/-- Increment of a `uint` (`set.entries++`): wraps around to zero at the
largest value. -/
def uintInc (n : Nat) : Nat := (n + 1) % 2 ^ 64

/-- One bin (`type HashSetBin struct`): payload and hash value.  The `next`
field is the position of the bin in the list that holds it. -/
structure HashSetBin (α : Type) where
  elt : Option α
  hash : HashValue
deriving DecidableEq

/-- A chain of bins: the value of a `*HashSetBin`. -/
abbrev Chain (α : Type) := List (HashSetBin α)

/-- The set (`type HashSet struct`). -/
structure HashSet (α : Type) where
  entries : Nat
  eql : Option α → Option α → Bool
  defaultValue : Option α
  table : AList (fun _ : HashValue => Chain α)
  pooledBins : Chain α

variable {α : Type}

/-- Constructor `NewHashSet(eql)`: every other field is the zero value. -/
def NewHashSet (eql : Option α → Option α → Bool) : HashSet α :=
  { entries := 0, eql := eql, defaultValue := none, table := ∅, pooledBins := [] }

/-- Method `Free`: the table is replaced by an empty map, nothing else changes. -/
def HashSet.Free (set : HashSet α) : HashSet α :=
  { set with table := ∅ }

/-- Method `Count`. -/
def HashSet.Count (set : HashSet α) : Nat := set.entries

/-- The expression `set.table[hash]`: nil when the key is missing. -/
def HashSet.chainAt (set : HashSet α) (hash : HashValue) : Chain α :=
  (set.table.lookup hash).getD []

/-- The search loop of `Insert` and `Find`,
`for bin != nil && !set.eql(ptr, bin.elt) { bin = bin.next }`; the result is
the final value of `bin`. -/
def findBin (eql : Option α → Option α → Bool) (ptr : Option α) : Chain α → Chain α
  | [] => []
  | bin :: next => if eql ptr bin.elt then bin :: next else findBin eql ptr next

/-- Method `Recycle`: the bin is pushed on the pool and its payload cleared. -/
def HashSet.Recycle (set : HashSet α) (bin : HashSetBin α) : HashSet α :=
  { set with pooledBins := { bin with elt := none } :: set.pooledBins }

/-- The refill loop of `GetUnusedBin`,
`for i := 0; i < POOLED_BUFFER_SIZE; i++ { set.Recycle(&HashSetBin{}) }`,
with `n` iterations left. -/
def recycleFresh : Nat → HashSet α → HashSet α
  | 0, set => set
  | n + 1, set => recycleFresh n (set.Recycle { elt := none, hash := 0 })

/-- Method `GetUnusedBin`: pops the pool, or refills it and returns a fresh
zero bin.  The constant `POOLED_BUFFER_SIZE` is declared outside `hashset.go`
and is a parameter. -/
def HashSet.GetUnusedBin (POOLED_BUFFER_SIZE : Nat) (set : HashSet α) :
    HashSetBin α × HashSet α :=
  match set.pooledBins with
  | bin :: next => (bin, { set with pooledBins := next })
  | [] => ({ elt := none, hash := 0 }, recycleFresh POOLED_BUFFER_SIZE set)

/-- The payload `Insert` stores in a new bin,
`if trans != nil { bin.elt = trans(ptr, data) } else { bin.elt = data }`;
`trans` is `none` for a nil function. -/
def payload (trans : Option (Option α → Option α → Option α)) (ptr data : Option α) :
    Option α :=
  match trans with
  | some t => t ptr data
  | none => data

/-- Method `Insert`; `trans` is `none` for a nil function.  Returns the element
and the set after the call. -/
def HashSet.Insert (POOLED_BUFFER_SIZE : Nat) (set : HashSet α) (hash : HashValue)
    (ptr : Option α) (trans : Option (Option α → Option α → Option α))
    (data : Option α) : Option α × HashSet α :=
  match findBin set.eql ptr (set.chainAt hash) with
  | bin :: _ => (bin.elt, set)
  | [] =>
    let got := set.GetUnusedBin POOLED_BUFFER_SIZE
    let bin : HashSetBin α := { got.1 with hash := hash }
    let bin : HashSetBin α := { bin with elt := payload trans ptr data }
    let set1 := got.2
    let set2 := { set1 with table := set1.table.insert hash (bin :: set1.chainAt hash) }
    let set3 := { set2 with entries := uintInc set2.entries }
    (bin.elt, set3)

/-- The search loop of `Remove`.  `before` holds the bins already passed, so
`prevPtr` is nil when `before` is empty and is the address of the `next` field
of its last bin otherwise.  The result is `before` and the final `bin`. -/
def removeWalk (eql : Option α → Option α → Bool) (ptr : Option α) :
    Chain α → Chain α → Chain α × Chain α
  | before, [] => (before, [])
  | before, bin :: next =>
    if eql ptr bin.elt then (before, bin :: next)
    else removeWalk eql ptr (before ++ [bin]) next

/-- Method `Remove`.  Returns the removed element (`none` is the nil result)
and the set after the call.  With `prevPtr` nil the map entry is deleted;
otherwise `*prevPtr = bin.next` leaves the chain of `hash` as the bins passed
followed by the bins after `bin`. -/
def HashSet.Remove (set : HashSet α) (hash : HashValue) (ptr : Option α) :
    Option α × HashSet α :=
  match removeWalk set.eql ptr [] (set.chainAt hash) with
  | (_, []) => (none, set)
  | (before, bin :: next) =>
    let set1 : HashSet α :=
      match before with
      | [] => { set with table := set.table.erase hash }
      | _ :: _ => { set with table := set.table.insert hash (before ++ next) }
    let set2 := { set1 with entries := uintDec set1.entries }
    let elt := bin.elt
    (elt, set2.Recycle bin)

/-- Method `Find`. -/
def HashSet.Find (set : HashSet α) (hash : HashValue) (ptr : Option α) : Option α :=
  match findBin set.eql ptr (set.chainAt hash) with
  | bin :: _ => bin.elt
  | [] => set.defaultValue

/-- The inner loop of `Each` on one chain: the elements handed to the visitor. -/
def eachChain : Chain α → List (Option α)
  | [] => []
  | bin :: next => bin.elt :: eachChain next

/-- Method `Each`: the elements handed to the visitor `f`, in the order of the
calls.  The map is ranged over in the order of its entries. -/
def HashSet.Each (set : HashSet α) : List (Option α) :=
  (set.table.entries.map (fun e => eachChain e.2)).flatten

/-- The inner loop of `Filter` for the map entry `i`.

`prevPtr` is `none` while it is `&first`, the address of the loop variable,
and `some kept` once it is the address of the `next` field of a retained bin,
`kept` being the retained bins linked up to that one.  The test
`first == *prevPtr` compares the head pointer with `first` itself in the first
case, and with the current bin, which lies behind the head, in the second: it
holds exactly when `prevPtr` is `none`.  The assignment `*prevPtr = bin.next`
links the retained bins to the bins after `bin`; the table sees it when entry
`i` still points to the head of the chain, not after it was set to nil. -/
def filterLoop (f : Option α → Option α → Bool) (data : Option α) (i : HashValue) :
    Option (Chain α) → Chain α → HashSet α → HashSet α
  | _, [], set => set
  | prevPtr, bin :: next, set =>
    if f bin.elt data then
      filterLoop f data i (some (prevPtr.getD [] ++ [bin])) next set
    else
      let set1 : HashSet α :=
        match prevPtr with
        | none => { set with table := set.table.insert i [] }
        | some kept =>
          match set.chainAt i with
          | [] => set
          | _ :: _ => { set with table := set.table.insert i (kept ++ next) }
      let set2 := { set1 with entries := uintDec set1.entries }
      filterLoop f data i prevPtr next (set2.Recycle bin)

/-- Method `Filter`: the outer loop ranges over the entries of the map. -/
def HashSet.Filter (set : HashSet α) (f : Option α → Option α → Bool)
    (data : Option α) : HashSet α :=
  set.table.entries.foldl (fun s e => filterLoop f data e.1 none e.2 s) set

/-- Total length of the chains of a list of map entries. -/
def chainsLength (l : List (Sigma (fun _ : HashValue => Chain α))) : Nat :=
  (l.map (fun e => e.2.length)).sum

/-- Number of bins reachable across all chains of the table. -/
def HashSet.liveBins (set : HashSet α) : Nat :=
  chainsLength set.table.entries

/-- The states of a set built by the exported operations, starting from
`NewHashSet(eql)`. -/
inductive Reachable (POOLED_BUFFER_SIZE : Nat) : HashSet α → Prop
  | new (eql : Option α → Option α → Bool) : Reachable POOLED_BUFFER_SIZE (NewHashSet eql)
  | insert {s : HashSet α} (h : HashValue) (ptr : Option α)
      (trans : Option (Option α → Option α → Option α)) (data : Option α) :
      Reachable POOLED_BUFFER_SIZE s →
      Reachable POOLED_BUFFER_SIZE (s.Insert POOLED_BUFFER_SIZE h ptr trans data).2
  | remove {s : HashSet α} (h : HashValue) (ptr : Option α) :
      Reachable POOLED_BUFFER_SIZE s → Reachable POOLED_BUFFER_SIZE (s.Remove h ptr).2
  | filter {s : HashSet α} (f : Option α → Option α → Bool) (data : Option α) :
      Reachable POOLED_BUFFER_SIZE s → Reachable POOLED_BUFFER_SIZE (s.Filter f data)
  | free {s : HashSet α} :
      Reachable POOLED_BUFFER_SIZE s → Reachable POOLED_BUFFER_SIZE s.Free

/-- Number of bins of a chain the filter function rejects. -/
def rejected (f : Option α → Option α → Bool) (data : Option α) (c : Chain α) : Nat :=
  (c.filter (fun b => !f b.elt data)).length

/-- The set after the rejecting branch of the inner loop of `Filter`, entered
with `prevPtr` and the rejected bin `bin` followed by `next`: the body of the
`else` branch of `filterLoop` up to and including `set.Recycle(bin)`. -/
def rejectStep (i : HashValue) (prevPtr : Option (Chain α)) (next : Chain α)
    (set : HashSet α) (bin : HashSetBin α) : HashSet α :=
  let set1 : HashSet α :=
    match prevPtr with
    | none => { set with table := set.table.insert i [] }
    | some kept =>
      match set.chainAt i with
      | [] => set
      | _ :: _ => { set with table := set.table.insert i (kept ++ next) }
  let set2 := { set1 with entries := uintDec set1.entries }
  set2.Recycle bin

/-- The chain `Filter` leaves in a map entry whose chain was `c`: the retained
bins of `c` when its head is retained, the nil chain otherwise. -/
def filterChain (f : Option α → Option α → Bool) (data : Option α) : Chain α → Chain α
  | [] => []
  | b :: next => if f b.elt data then (b :: next).filter (fun x => f x.elt data) else []

/-- Number of bins the filter function rejects in a list of map entries. -/
def rejectedEntries (f : Option α → Option α → Bool) (data : Option α)
    (l : List (Sigma (fun _ : HashValue => Chain α))) : Nat :=
  (l.map (fun e => rejected f data e.2)).sum

/-- Total length of the chains `Filter` leaves for a list of map entries. -/
def filteredLength (f : Option α → Option α → Bool) (data : Option α)
    (l : List (Sigma (fun _ : HashValue => Chain α))) : Nat :=
  (l.map (fun e => (filterChain f data e.2).length)).sum

/-- The states of a set built by the exported operations without overflow of
the counter: as `Reachable`, but an `Insert` that adds a bin (no element of the
chain matches the probe key) is made only while the counter is below the
largest `uint`. -/
inductive ReachableInRange (POOLED_BUFFER_SIZE : Nat) : HashSet α → Prop
  | new (eql : Option α → Option α → Bool) :
      ReachableInRange POOLED_BUFFER_SIZE (NewHashSet eql)
  | insert {s : HashSet α} (h : HashValue) (ptr : Option α)
      (trans : Option (Option α → Option α → Option α)) (data : Option α)
      (hfit : (∀ b ∈ s.chainAt h, s.eql ptr b.elt = false) → s.entries < maxUint) :
      ReachableInRange POOLED_BUFFER_SIZE s →
      ReachableInRange POOLED_BUFFER_SIZE (s.Insert POOLED_BUFFER_SIZE h ptr trans data).2
  | remove {s : HashSet α} (h : HashValue) (ptr : Option α) :
      ReachableInRange POOLED_BUFFER_SIZE s →
      ReachableInRange POOLED_BUFFER_SIZE (s.Remove h ptr).2
  | filter {s : HashSet α} (f : Option α → Option α → Bool) (data : Option α) :
      ReachableInRange POOLED_BUFFER_SIZE s →
      ReachableInRange POOLED_BUFFER_SIZE (s.Filter f data)
  | free {s : HashSet α} :
      ReachableInRange POOLED_BUFFER_SIZE s → ReachableInRange POOLED_BUFFER_SIZE s.Free

/-- The states of a set built by `Insert`, `Remove` and `Filter` from
`NewHashSet(eql)` when `eql` is key equality for the key function `key`
(`eql(p, e)` holds exactly when `p` is `key(e)`) and every `Insert` stores a
payload whose key is its probe key. -/
inductive KeyedReachable (POOLED_BUFFER_SIZE : Nat) (key : Option α → Option α) :
    HashSet α → Prop
  | new (eql : Option α → Option α → Bool) (heql : ∀ p e, eql p e = true ↔ p = key e) :
      KeyedReachable POOLED_BUFFER_SIZE key (NewHashSet eql)
  | insert {s : HashSet α} (h : HashValue) (ptr : Option α)
      (trans : Option (Option α → Option α → Option α)) (data : Option α)
      (hkey : key (payload trans ptr data) = ptr) :
      KeyedReachable POOLED_BUFFER_SIZE key s →
      KeyedReachable POOLED_BUFFER_SIZE key (s.Insert POOLED_BUFFER_SIZE h ptr trans data).2
  | remove {s : HashSet α} (h : HashValue) (ptr : Option α) :
      KeyedReachable POOLED_BUFFER_SIZE key s →
      KeyedReachable POOLED_BUFFER_SIZE key (s.Remove h ptr).2
  | filter {s : HashSet α} (f : Option α → Option α → Bool) (data : Option α) :
      KeyedReachable POOLED_BUFFER_SIZE key s →
      KeyedReachable POOLED_BUFFER_SIZE key (s.Filter f data)

/-! ## Concrete sets

Payloads are natural numbers and the probe key of an element is the element
itself, so `eql` is equality.  All elements are stored under the hash value 1,
the elements being `A = 10`, `B = 20` and `C = 30`. -/

/-- Key equality: `eql(ptr, elt)` holds when the probe key is the element. -/
def keyEql : Option Nat → Option Nat → Bool := fun ptr elt => decide (ptr = elt)

/-- The set after `Insert(1, A, nil, A)` and `Insert(1, B, nil, B)` on
`NewHashSet(keyEql)`: the chain of hash 1 is `B, A`. -/
def setAB (n : Nat) : HashSet Nat :=
  (((NewHashSet keyEql).Insert n 1 (some 10) none (some 10)).2.Insert n 1 (some 20) none
    (some 20)).2

/-- The set after a further `Insert(1, C, nil, C)`: the chain of hash 1 is
`C, B, A`. -/
def setABC (n : Nat) : HashSet Nat :=
  ((setAB n).Insert n 1 (some 30) none (some 30)).2

/-- A filter function that rejects `B` and retains every other element. -/
def notB : Option Nat → Option Nat → Bool := fun elt _ => decide (elt ≠ some 20)

/-- A set with an empty table whose counter is the largest `uint`. -/
def setFull : HashSet Nat := { NewHashSet keyEql with entries := maxUint }

/-- The set `setFull` after `Insert(1, A, nil, A)`: the chain of hash 1 is `A`
and the counter has wrapped around to 0. -/
def setWrapped : HashSet Nat := (setFull.Insert 2 1 (some 10) none (some 10)).2

/-- A filter function that rejects `A` and retains every other element. -/
def notA : Option Nat → Option Nat → Bool := fun elt _ => decide (elt ≠ some 10)

/-! ## Shapes of `shape.go`

Vectors, scalars (`float64`) and pointers to records declared in other files
are values of the type parameters `V`, `F` and `Ref`: `Order` and `Point` only
pass them on.  The functions `NewSupportPoint` and `VectorZero` are declared
outside `shape.go` and are parameters of `Point`; `SP` is the type of the
support points `NewSupportPoint` returns. -/

/-- Modelled from the spec: one entry of the plane sequence of a polygon, a
half-plane/vertex pair whose vertex is `v0`.  The type `SplittingPlane` is
declared outside `shape.go`. -/
structure SplittingPlane (V : Type) where
  v0 : V
  n : V
deriving DecidableEq

/-- Modelled from the spec: the circle variant, center and radius with the
cached transformed center `tc`.  The type `Circle` is declared outside
`shape.go`. -/
structure Circle (V F : Type) where
  c : V
  tc : V
  r : F
deriving DecidableEq

/-- Modelled from the spec: the segment variant, two endpoints `a`, `b` with
the cached transformed `ta`, `tb`, and a radius.  The type `Segment` is declared
outside `shape.go`. -/
structure Segment (V F : Type) where
  a : V
  b : V
  ta : V
  tb : V
  r : F
deriving DecidableEq

/-- Modelled from the spec: the polygon variant, a vertex count and the ordered
sequence of planes; the count may change over the life of the shape.  The type
`PolyShape` is declared outside `shape.go`. -/
structure PolyShape (V : Type) where
  count : Nat
  planes : List (SplittingPlane V)
deriving DecidableEq

/-- The dynamic type of the interface value `class` as the type switches of
`shape.go` see it: `*Circle`, `*Segment`, `*PolyShape`, or anything else (the
`default` case, nil included). -/
inductive ShapeClass (V F : Type) where
  | circle (c : Circle V F)
  | segment (seg : Segment V F)
  | polyShape (poly : PolyShape V)
  | other
deriving DecidableEq

/-- The record `type Shape struct`; the field `class` is `class_`. -/
structure Shape (V F Ref : Type) where
  class_ : ShapeClass V F
  space : Ref
  body : Ref
  massInfo : Ref
  bb : Ref
  sensor : Bool
  E : F
  U : F
  surfaceV : Ref
  userData : Ref
  collisionType : Nat
  Filter : Ref
  next : Ref
  prev : Ref
  hashid : Nat

/-- Method `Order`. -/
def Shape.Order {V F Ref : Type} (s : Shape V F Ref) : Int :=
  match s.class_ with
  | .circle _ => 0
  | .segment _ => 1
  | .polyShape _ => 2
  | .other => 3

/-- Method `Point`.  The result is `none` when the index expression
`poly.planes[index]` is out of range, a run-time panic in Go. -/
def Shape.Point {V F Ref SP : Type} (NewSupportPoint : V → Nat → SP) (VectorZero : V)
    (s : Shape V F Ref) (i : Nat) : Option SP :=
  match s.class_ with
  | .circle c => some (NewSupportPoint c.tc 0)
  | .segment seg =>
    if i = 0 then some (NewSupportPoint seg.ta i)
    else some (NewSupportPoint seg.tb i)
  | .polyShape poly =>
    let index : Nat := if i < poly.count then i else 0
    match poly.planes[index]? with
    | some plane => some (NewSupportPoint plane.v0 index)
    | none => none
  | .other => some (NewSupportPoint VectorZero 0)

/-! ## Concrete shapes

Vectors are pairs of integers, scalars are integers, references are trivial,
and a support point is the pair of its two constructor arguments. -/

/-- A shape of the given class whose other fields are zero values. -/
def shapeOf (cl : ShapeClass (Int × Int) Int) : Shape (Int × Int) Int Unit :=
  { class_ := cl, space := (), body := (), massInfo := (), bb := (), sensor := false,
    E := 0, U := 0, surfaceV := (), userData := (), collisionType := 0, Filter := (),
    next := (), prev := (), hashid := 0 }

/-- A circle with transformed center `(5, 6)`. -/
def circleC : Circle (Int × Int) Int := { c := (1, 2), tc := (5, 6), r := 3 }

/-- A segment with transformed endpoints `(7, 8)` and `(9, 10)`. -/
def segmentS : Segment (Int × Int) Int :=
  { a := (0, 0), b := (1, 0), ta := (7, 8), tb := (9, 10), r := 2 }

/-- A polygon of two vertices `(1, 1)` and `(2, 2)`. -/
def polyP : PolyShape (Int × Int) :=
  { count := 2, planes := [{ v0 := (1, 1), n := (0, 1) }, { v0 := (2, 2), n := (1, 0) }] }

/-- A polygon whose vertex sequence is empty. -/
def polyEmpty : PolyShape (Int × Int) := { count := 0, planes := [] }

/-! ## The search loops -/

theorem findBin_eq_nil {eql : Option α → Option α → Bool} {ptr : Option α} {c : Chain α}
    (h : ∀ b ∈ c, eql ptr b.elt = false) : findBin eql ptr c = [] := by
  induction c with
  | nil => rfl
  | cons b next ih =>
    have hb : eql ptr b.elt = false := h b (List.mem_cons_self _ _)
    simp only [findBin, hb, Bool.false_eq_true, if_false]
    exact ih (fun x hx => h x (List.mem_cons_of_mem _ hx))

theorem findBin_split (eql : Option α → Option α → Bool) (ptr : Option α) (c : Chain α) :
    ∃ before, c = before ++ findBin eql ptr c ∧ (∀ b ∈ before, eql ptr b.elt = false) ∧
      removeWalk eql ptr [] c = (before, findBin eql ptr c) := by
  suffices H : ∀ (acc : Chain α), ∃ before, c = before ++ findBin eql ptr c ∧
      (∀ b ∈ before, eql ptr b.elt = false) ∧
      removeWalk eql ptr acc c = (acc ++ before, findBin eql ptr c) by
    simpa using H []
  induction c with
  | nil => intro acc; exact ⟨[], by simp [findBin, removeWalk]⟩
  | cons b next ih =>
    intro acc
    by_cases hb : eql ptr b.elt = true
    · exact ⟨[], by simp [findBin, removeWalk, hb]⟩
    · obtain ⟨before, h1, h2, h3⟩ := ih (acc ++ [b])
      have hb' : eql ptr b.elt = false := by simpa using hb
      refine ⟨b :: before, ?_, ?_, ?_⟩
      · simp only [findBin, hb', Bool.false_eq_true, if_false, List.cons_append]
        exact congrArg _ h1
      · intro x hx
        rcases List.mem_cons.1 hx with rfl | hx
        · exact hb'
        · exact h2 x hx
      · simp only [findBin, removeWalk, hb', Bool.false_eq_true, if_false, h3]
        simp

theorem findBin_head (eql : Option α → Option α → Bool) (ptr : Option α) (c : Chain α) :
    (findBin eql ptr c).head? = c.find? (fun b => eql ptr b.elt) := by
  induction c with
  | nil => rfl
  | cons b next ih =>
    by_cases hb : eql ptr b.elt = true
    · simp [findBin, hb]
    · have hb' : eql ptr b.elt = false := by simpa using hb
      simp [findBin, hb', ih]

theorem findBin_cons_of_mem {eql : Option α → Option α → Bool} {ptr : Option α} {c : Chain α}
    (h : ∃ b ∈ c, eql ptr b.elt = true) :
    ∃ bin next, findBin eql ptr c = bin :: next ∧ eql ptr bin.elt = true ∧
      c.find? (fun b => eql ptr b.elt) = some bin := by
  induction c with
  | nil => simp at h
  | cons b next ih =>
    by_cases hb : eql ptr b.elt = true
    · exact ⟨b, next, by simp [findBin, hb], hb, by simp [hb]⟩
    · have hb' : eql ptr b.elt = false := by simpa using hb
      obtain ⟨x, hx, hxe⟩ := h
      rcases List.mem_cons.1 hx with rfl | hx
      · exact absurd hxe hb
      · obtain ⟨bin, nx, h1, h2, h3⟩ := ih ⟨x, hx, hxe⟩
        exact ⟨bin, nx, by simp [findBin, hb', h1], h2, by simp [hb', h3]⟩

/-! ## Frame lemmas for the pool -/

@[simp]
theorem recycleFresh_table (n : Nat) (s : HashSet α) : (recycleFresh n s).table = s.table := by
  induction n generalizing s with
  | zero => rfl
  | succ n ih => simp [recycleFresh, ih, HashSet.Recycle]

@[simp]
theorem recycleFresh_entries (n : Nat) (s : HashSet α) :
    (recycleFresh n s).entries = s.entries := by
  induction n generalizing s with
  | zero => rfl
  | succ n ih => simp [recycleFresh, ih, HashSet.Recycle]

@[simp]
theorem recycleFresh_eql (n : Nat) (s : HashSet α) : (recycleFresh n s).eql = s.eql := by
  induction n generalizing s with
  | zero => rfl
  | succ n ih => simp [recycleFresh, ih, HashSet.Recycle]

@[simp]
theorem recycleFresh_defaultValue (n : Nat) (s : HashSet α) :
    (recycleFresh n s).defaultValue = s.defaultValue := by
  induction n generalizing s with
  | zero => rfl
  | succ n ih => simp [recycleFresh, ih, HashSet.Recycle]

@[simp]
theorem GetUnusedBin_table (n : Nat) (s : HashSet α) :
    (s.GetUnusedBin n).2.table = s.table := by
  unfold HashSet.GetUnusedBin; split <;> simp

@[simp]
theorem GetUnusedBin_entries (n : Nat) (s : HashSet α) :
    (s.GetUnusedBin n).2.entries = s.entries := by
  unfold HashSet.GetUnusedBin; split <;> simp

@[simp]
theorem GetUnusedBin_eql (n : Nat) (s : HashSet α) : (s.GetUnusedBin n).2.eql = s.eql := by
  unfold HashSet.GetUnusedBin; split <;> simp

@[simp]
theorem GetUnusedBin_defaultValue (n : Nat) (s : HashSet α) :
    (s.GetUnusedBin n).2.defaultValue = s.defaultValue := by
  unfold HashSet.GetUnusedBin; split <;> simp

/-! ## Insert -/

theorem uintInc_of_lt {n : Nat} (h : n < maxUint) : uintInc n = n + 1 := by
  unfold uintInc
  unfold maxUint at h
  omega

theorem Insert_of_found {n : Nat} {s : HashSet α} {h : HashValue} {k : Option α}
    {trans : Option (Option α → Option α → Option α)} {data : Option α}
    {bin : HashSetBin α} {next : Chain α}
    (hf : findBin s.eql k (s.chainAt h) = bin :: next) :
    s.Insert n h k trans data = (bin.elt, s) := by
  simp [HashSet.Insert, hf]

theorem Insert_of_absent (n : Nat) {s : HashSet α} {h : HashValue} {k : Option α}
    (trans : Option (Option α → Option α → Option α)) (data : Option α)
    (hf : findBin s.eql k (s.chainAt h) = []) :
    (s.Insert n h k trans data).1 = payload trans k data ∧
    (s.Insert n h k trans data).2.entries = uintInc s.entries ∧
    (s.Insert n h k trans data).2.table =
      s.table.insert h ({ elt := payload trans k data, hash := h } :: s.chainAt h) ∧
    (s.Insert n h k trans data).2.eql = s.eql ∧
    (s.Insert n h k trans data).2.defaultValue = s.defaultValue := by
  simp only [HashSet.Insert, hf]
  cases trans <;> simp [payload, HashSet.chainAt]

theorem Find_of_found {s : HashSet α} {h : HashValue} {k : Option α}
    {bin : HashSetBin α} {next : Chain α}
    (hf : findBin s.eql k (s.chainAt h) = bin :: next) : s.Find h k = bin.elt := by
  simp [HashSet.Find, hf]

theorem Find_of_absent {s : HashSet α} {h : HashValue} {k : Option α}
    (hf : findBin s.eql k (s.chainAt h) = []) : s.Find h k = s.defaultValue := by
  simp [HashSet.Find, hf]

/-- C5: when the chain at `h` holds an element matching `k` under `eql`,
`Insert(h, k, trans, data)` returns the first matching element of the chain
and the set is left as it was: counter, chains and pool are unchanged, no bin
is added and the payload of `trans` is not stored. -/
theorem Insert_existing (n : Nat) (s : HashSet α) (h : HashValue) (k : Option α)
    (trans : Option (Option α → Option α → Option α)) (data : Option α)
    (hex : ∃ b ∈ s.chainAt h, s.eql k b.elt = true) :
    ∃ b, (s.chainAt h).find? (fun b => s.eql k b.elt) = some b ∧
      (s.Insert n h k trans data).1 = b.elt ∧
      (s.Insert n h k trans data).2 = s ∧
      (s.Insert n h k trans data).2.Count = s.Count := by
  obtain ⟨bin, next, hf, _, hfind⟩ := findBin_cons_of_mem hex
  exact ⟨bin, hfind, by rw [Insert_of_found hf], by rw [Insert_of_found hf],
    by rw [Insert_of_found hf]⟩

/-- C6 as amended: when no element of the chain at `h` matches `k`, whatever
the pool holds, `Insert(h, k, trans, data)` returns `trans(k, data)` for a
supplied `trans` and `data` for a nil one, and the new bin holding that payload
is the head of the chain at `h`.  `Count()` is incremented as a `uint`: it grows
by exactly one when it was below the largest `uint`, and wraps around to 0
when it was the largest `uint`. -/
theorem Insert_absent (n : Nat) (s : HashSet α) (h : HashValue) (k : Option α)
    (trans : Option (Option α → Option α → Option α)) (data : Option α)
    (habs : ∀ b ∈ s.chainAt h, s.eql k b.elt = false) :
    (s.Insert n h k trans data).1 =
        (match trans with
         | some t => t k data
         | none => data) ∧
      (s.Insert n h k trans data).2.Count = (s.Count + 1) % 2 ^ 64 ∧
      (s.Count < maxUint → (s.Insert n h k trans data).2.Count = s.Count + 1) ∧
      (s.Count = maxUint → (s.Insert n h k trans data).2.Count = 0) ∧
      (s.Insert n h k trans data).2.chainAt h =
        { elt := (s.Insert n h k trans data).1, hash := h } :: s.chainAt h := by
  obtain ⟨h1, h2, h3, _, _⟩ := Insert_of_absent n trans data (findBin_eq_nil habs)
  refine ⟨?_, ?_, ?_, ?_, ?_⟩
  · rw [h1]; cases trans <;> rfl
  · simpa [HashSet.Count, uintInc] using h2
  · intro hlt
    simp only [HashSet.Count, h2] at hlt ⊢
    exact uintInc_of_lt hlt
  · intro hmax
    simp only [HashSet.Count, h2] at hmax ⊢
    rw [hmax]
    decide
  · simp [HashSet.chainAt, h3, h1]

/-- C7: when the payload stored for `k` matches `k` under `eql`, `Find(h, k)`
right after `e := Insert(h, k, trans, data)` returns `e`, whether `k` was
present before or was added by the call. -/
theorem Find_after_Insert (n : Nat) (s : HashSet α) (h : HashValue) (k : Option α)
    (trans : Option (Option α → Option α → Option α)) (data : Option α)
    (hself : s.eql k (match trans with
                      | some t => t k data
                      | none => data) = true) :
    (s.Insert n h k trans data).2.Find h k = (s.Insert n h k trans data).1 := by
  cases hf : findBin s.eql k (s.chainAt h) with
  | cons bin next =>
    rw [Insert_of_found hf]
    exact Find_of_found hf
  | nil =>
    obtain ⟨h1, _, h3, h4, _⟩ := Insert_of_absent n trans data hf
    have hp : s.eql k (payload trans k data) = true := by cases trans <;> exact hself
    have hc : (s.Insert n h k trans data).2.chainAt h =
        { elt := payload trans k data, hash := h } :: s.chainAt h := by
      simp [HashSet.chainAt, h3]
    rw [h1]
    have hfound : findBin (s.Insert n h k trans data).2.eql k
        ((s.Insert n h k trans data).2.chainAt h) =
        { elt := payload trans k data, hash := h } :: s.chainAt h := by
      rw [h4, hc]
      simp [findBin, hp]
    exact Find_of_found hfound

/-! ## Remove -/

theorem Remove_of_absent {s : HashSet α} {h : HashValue} {k : Option α}
    (hf : findBin s.eql k (s.chainAt h) = []) : s.Remove h k = (none, s) := by
  obtain ⟨before, _, _, hw⟩ := findBin_split s.eql k (s.chainAt h)
  simp [HashSet.Remove, hw, hf]

theorem Remove_of_found {s : HashSet α} {h : HashValue} {k : Option α}
    {before : Chain α} {bin : HashSetBin α} {next : Chain α}
    (hw : removeWalk s.eql k [] (s.chainAt h) = (before, bin :: next)) :
    (s.Remove h k).1 = bin.elt ∧
    (s.Remove h k).2.entries = uintDec s.entries ∧
    (s.Remove h k).2.table =
      (match before with
       | [] => s.table.erase h
       | _ :: _ => s.table.insert h (before ++ next)) ∧
    (s.Remove h k).2.pooledBins = { bin with elt := none } :: s.pooledBins ∧
    (s.Remove h k).2.eql = s.eql ∧
    (s.Remove h k).2.defaultValue = s.defaultValue := by
  simp only [HashSet.Remove, hw]
  cases before <;> simp [HashSet.Recycle]

/-- C10: when no element of the chain at `h` matches `k` (also when the table
has no entry for `h`), `Remove(h, k)` returns nil and the set is left as it
was: counter, every chain and the pool are unchanged. -/
theorem Remove_absent (s : HashSet α) (h : HashValue) (k : Option α)
    (habs : ∀ b ∈ s.chainAt h, s.eql k b.elt = false) :
    (s.Remove h k).1 = none ∧ (s.Remove h k).2 = s ∧
      (s.Remove h k).2.Count = s.Count ∧
      (∀ j, (s.Remove h k).2.chainAt j = s.chainAt j) ∧
      (s.Remove h k).2.pooledBins = s.pooledBins := by
  rw [Remove_of_absent (findBin_eq_nil habs)]
  exact ⟨rfl, rfl, rfl, fun _ => rfl, rfl⟩

/-- C9: when at most one element of the chain at `h` matches `k`, `Find(h, k)`
after `Remove(h, k)` returns the default value of the set. -/
theorem Find_after_Remove (s : HashSet α) (h : HashValue) (k : Option α)
    (hone : ((s.chainAt h).filter (fun b => s.eql k b.elt)).length ≤ 1) :
    (s.Remove h k).2.Find h k = s.defaultValue := by
  obtain ⟨before, hsplit, hbefore, hw⟩ := findBin_split s.eql k (s.chainAt h)
  cases hf : findBin s.eql k (s.chainAt h) with
  | nil =>
    rw [Remove_of_absent hf]
    exact Find_of_absent hf
  | cons bin next =>
    rw [hf] at hw hsplit
    obtain ⟨_, _, ht, _, he, hd⟩ := Remove_of_found hw
    have hbin : s.eql k bin.elt = true := by
      have := findBin_head s.eql k (s.chainAt h)
      rw [hf] at this
      have h2 := List.find?_some this.symm
      simpa using h2
    have hnext : ∀ b ∈ next, s.eql k b.elt = false := by
      intro b hb
      by_contra hne
      have hbt : s.eql k b.elt = true := by simpa using hne
      rw [hsplit, List.filter_append, List.filter_cons_of_pos (by simpa using hbin)] at hone
      have hmem : b ∈ next.filter (fun b => s.eql k b.elt) :=
        List.mem_filter.2 ⟨hb, by simpa using hbt⟩
      have hpos := List.length_pos_of_mem hmem
      simp only [List.length_append, List.length_cons] at hone
      omega
    have hnone : ∀ b ∈ (s.Remove h k).2.chainAt h, s.eql k b.elt = false := by
      intro b hb
      cases before with
      | nil =>
        have : (s.Remove h k).2.chainAt h = [] := by simp [HashSet.chainAt, ht]
        rw [this] at hb
        cases hb
      | cons x xs =>
        have : (s.Remove h k).2.chainAt h = (x :: xs) ++ next := by
          simp [HashSet.chainAt, ht]
        rw [this] at hb
        rcases List.mem_append.1 hb with hb | hb
        · exact hbefore b hb
        · exact hnext b hb
    rw [← hd]
    apply Find_of_absent
    rw [he]
    exact findBin_eq_nil hnone

/-! ## The counter bounds the live bins -/

theorem chainsLength_kerase (l : List (Sigma (fun _ : HashValue => Chain α))) (a : HashValue) :
    chainsLength l = chainsLength (l.kerase a) + ((l.dlookup a).getD []).length := by
  induction l with
  | nil => simp [chainsLength]
  | cons e l ih =>
    obtain ⟨a', c⟩ := e
    by_cases hEq : a = a'
    · subst hEq
      simp [chainsLength, List.kerase_cons_eq, List.dlookup_cons_eq, Nat.add_comm]
    · have hne : a ≠ a' := hEq
      rw [List.kerase_cons_ne hne, List.dlookup_cons_ne _ _ hne]
      simp only [chainsLength, List.map_cons, List.sum_cons] at ih ⊢
      omega

theorem liveBins_insert {s t : HashSet α} {h : HashValue} {c : Chain α}
    (e : t.table = s.table.insert h c) :
    t.liveBins + (s.chainAt h).length = s.liveBins + c.length := by
  have hk := chainsLength_kerase s.table.entries h
  simp only [HashSet.liveBins, HashSet.chainAt, e, AList.insert_entries, AList.lookup] at hk ⊢
  simp only [chainsLength, List.map_cons, List.sum_cons] at hk ⊢
  omega

theorem liveBins_erase {s t : HashSet α} {h : HashValue} (e : t.table = s.table.erase h) :
    t.liveBins + (s.chainAt h).length = s.liveBins := by
  have hk := chainsLength_kerase s.table.entries h
  simp only [HashSet.liveBins, HashSet.chainAt, e, AList.lookup, AList.erase] at hk ⊢
  omega

theorem chainAt_length_le_liveBins (s : HashSet α) (h : HashValue) :
    (s.chainAt h).length ≤ s.liveBins := by
  have := liveBins_erase (s := s) (t := { s with table := s.table.erase h }) (h := h) rfl
  omega

theorem chainAt_of_mem_entries {s : HashSet α} {e : Sigma (fun _ : HashValue => Chain α)}
    (he : e ∈ s.table.entries) : s.chainAt e.1 = e.2 := by
  obtain ⟨a, c⟩ := e
  have : c ∈ s.table.lookup a := AList.mem_lookup_iff.2 he
  simp [HashSet.chainAt, Option.mem_def.1 this]

theorem uintDec_of_pos {n : Nat} (h : 0 < n) : uintDec n = n - 1 := by
  simp [uintDec, Nat.pos_iff_ne_zero.1 h]

theorem uintDec_eq_mod {n : Nat} (h : n < 2 ^ 64) : uintDec n = (n + (2 ^ 64 - 1)) % 2 ^ 64 := by
  unfold uintDec maxUint
  split
  · subst n; rfl
  · omega

theorem Insert_liveBins_le (n : Nat) (s : HashSet α) (h : HashValue) (k : Option α)
    (trans : Option (Option α → Option α → Option α)) (data : Option α)
    (hfit : (∀ b ∈ s.chainAt h, s.eql k b.elt = false) → s.entries < maxUint)
    (hinv : s.liveBins ≤ s.entries) :
    (s.Insert n h k trans data).2.liveBins ≤ (s.Insert n h k trans data).2.entries := by
  cases hf : findBin s.eql k (s.chainAt h) with
  | cons bin next => rw [Insert_of_found hf]; exact hinv
  | nil =>
    obtain ⟨_, h2, h3, _, _⟩ := Insert_of_absent n trans data hf
    have hl := liveBins_insert h3
    have hlt : s.entries < maxUint := by
      apply hfit
      intro b hb
      by_contra hne
      have hbt : s.eql k b.elt = true := by simpa using hne
      obtain ⟨bin, next, hc, _, _⟩ := findBin_cons_of_mem ⟨b, hb, hbt⟩
      rw [hf] at hc
      cases hc
    rw [h2, uintInc_of_lt hlt]
    simp only [List.length_cons] at hl
    omega

theorem Remove_liveBins_le (s : HashSet α) (h : HashValue) (k : Option α)
    (hinv : s.liveBins ≤ s.entries) :
    (s.Remove h k).2.liveBins ≤ (s.Remove h k).2.entries := by
  obtain ⟨before, hsplit, _, hw⟩ := findBin_split s.eql k (s.chainAt h)
  cases hf : findBin s.eql k (s.chainAt h) with
  | nil => rw [Remove_of_absent hf]; exact hinv
  | cons bin next =>
    rw [hf] at hw hsplit
    obtain ⟨_, h2, h3, _, _, _⟩ := Remove_of_found hw
    have hlen := chainAt_length_le_liveBins s h
    have hc : (s.chainAt h).length = before.length + (next.length + 1) := by
      rw [hsplit]; simp
    rw [h2, uintDec_of_pos (by omega)]
    cases before with
    | nil =>
      have hl := liveBins_erase h3
      omega
    | cons x xs =>
      have hl := liveBins_insert h3
      simp only [List.length_append, List.length_cons] at hl hc
      omega

theorem rejected_le_length (f : Option α → Option α → Bool) (data : Option α) (c : Chain α) :
    rejected f data c ≤ c.length :=
  List.length_filter_le _ _

theorem filterLoop_chainAt_ne (f : Option α → Option α → Bool) (data : Option α)
    {i j : HashValue} (hne : j ≠ i) (c : Chain α) :
    ∀ (p : Option (Chain α)) (s : HashSet α),
      (filterLoop f data i p c s).chainAt j = s.chainAt j := by
  induction c with
  | nil => intro p s; rfl
  | cons b next ih =>
    intro p s
    by_cases hb : f b.elt data = true
    · simp only [filterLoop, hb, if_true]
      exact ih _ _
    · simp only [filterLoop, hb, Bool.false_eq_true, if_false]
      rw [ih]
      cases p with
      | none => simp [HashSet.chainAt, HashSet.Recycle, AList.lookup_insert_ne hne]
      | some kept =>
        cases hc : s.chainAt i with
        | nil => simp [HashSet.chainAt, HashSet.Recycle]
        | cons x xs => simp [HashSet.chainAt, HashSet.Recycle, AList.lookup_insert_ne hne]

theorem chainsLength_insert (t : AList (fun _ : HashValue => Chain α)) (h : HashValue)
    (c : Chain α) :
    chainsLength (t.insert h c).entries + ((t.lookup h).getD []).length =
      chainsLength t.entries + c.length := by
  have hk := chainsLength_kerase t.entries h
  simp only [AList.insert_entries, AList.lookup] at hk ⊢
  simp only [chainsLength, List.map_cons, List.sum_cons] at hk ⊢
  omega

theorem rejected_cons_of_keep {f : Option α → Option α → Bool} {data : Option α}
    {b : HashSetBin α} (next : Chain α) (hb : f b.elt data = true) :
    rejected f data (b :: next) = rejected f data next := by
  simp [rejected, hb]

theorem rejected_cons_of_reject {f : Option α → Option α → Bool} {data : Option α}
    {b : HashSetBin α} (next : Chain α) (hb : ¬ f b.elt data = true) :
    rejected f data (b :: next) = rejected f data next + 1 := by
  simp [rejected, hb]

/-- Invariant of the inner loop of `Filter`: either entry `i` still holds the
chain being walked and the counter bounds the live bins, or entry `i` is nil
and the counter also covers the rejections still to come. -/
theorem filterLoop_liveBins_le (f : Option α → Option α → Bool) (data : Option α)
    (i : HashValue) (c : Chain α) :
    ∀ (p : Option (Chain α)) (s : HashSet α),
      ((s.chainAt i = p.getD [] ++ c ∧ s.liveBins ≤ s.entries) ∨
        (s.chainAt i = [] ∧ s.liveBins + rejected f data c ≤ s.entries)) →
      (filterLoop f data i p c s).liveBins ≤ (filterLoop f data i p c s).entries := by
  induction c with
  | nil =>
    intro p s hs
    simp only [filterLoop]
    rcases hs with ⟨_, h2⟩ | ⟨_, h2⟩
    · exact h2
    · simp only [rejected, List.filter_nil, List.length_nil, Nat.add_zero] at h2
      exact h2
  | cons b next ih =>
    intro p s hs
    by_cases hb : f b.elt data = true
    · simp only [filterLoop, hb, if_true]
      apply ih
      rcases hs with ⟨h1, h2⟩ | ⟨h1, h2⟩
      · exact Or.inl ⟨by simpa using h1, h2⟩
      · exact Or.inr ⟨h1, by rw [rejected_cons_of_keep next hb] at h2; exact h2⟩
    · simp only [filterLoop, hb, Bool.false_eq_true, if_false]
      apply ih
      have hlen := chainAt_length_le_liveBins s i
      have hrl := rejected_le_length f data next
      rw [rejected_cons_of_reject next hb] at hs
      cases p with
      | none =>
        have hins := chainsLength_insert s.table i []
        simp only [HashSet.chainAt, HashSet.liveBins, HashSet.Recycle, AList.lookup_insert,
          Option.getD_some, Option.getD_none, List.nil_append, List.length_nil] at hs hlen hins ⊢
        right
        refine ⟨trivial, ?_⟩
        rcases hs with ⟨h1, h2⟩ | ⟨h1, h2⟩
        · rw [h1] at hins hlen
          simp only [List.length_cons] at hins hlen
          rw [uintDec_of_pos (by omega)]
          omega
        · rw [uintDec_of_pos (by omega)]
          rw [h1] at hins
          simp only [List.length_nil] at hins
          omega
      | some kept =>
        cases hc : s.chainAt i with
        | nil =>
          rcases hs with ⟨h1, _⟩ | ⟨h1, h2⟩
          · rw [hc] at h1
            simp at h1
          · right
            simp only [HashSet.chainAt, HashSet.liveBins, HashSet.Recycle] at h2 hc ⊢
            refine ⟨hc, ?_⟩
            rw [uintDec_of_pos (by omega)]
            omega
        | cons x xs =>
          rcases hs with ⟨h1, h2⟩ | ⟨h1, _⟩
          · left
            have hins := chainsLength_insert s.table i (kept ++ next)
            simp only [HashSet.chainAt, HashSet.liveBins, HashSet.Recycle, AList.lookup_insert,
              Option.getD_some] at h1 h2 hlen hins ⊢
            refine ⟨trivial, ?_⟩
            rw [h1] at hins hlen
            simp only [List.length_append, List.length_cons] at hins hlen
            rw [uintDec_of_pos (by omega)]
            omega
          · rw [hc] at h1
            cases h1

theorem filterFold_liveBins_le (f : Option α → Option α → Bool) (data : Option α)
    (l : List (Sigma (fun _ : HashValue => Chain α))) :
    ∀ (s : HashSet α), l.NodupKeys → (∀ e ∈ l, s.chainAt e.1 = e.2) →
      s.liveBins ≤ s.entries →
      (l.foldl (fun s e => filterLoop f data e.1 none e.2 s) s).liveBins ≤
        (l.foldl (fun s e => filterLoop f data e.1 none e.2 s) s).entries := by
  induction l with
  | nil => intro s _ _ hinv; exact hinv
  | cons e l ih =>
    intro s hnd hch hinv
    rw [List.nodupKeys_cons] at hnd
    simp only [List.foldl_cons]
    apply ih _ hnd.2
    · intro e' he'
      have hne : e'.1 ≠ e.1 := by
        intro heq
        exact hnd.1 (heq ▸ List.mem_keys_of_mem he')
      rw [filterLoop_chainAt_ne f data hne]
      exact hch e' (List.mem_cons_of_mem _ he')
    · apply filterLoop_liveBins_le
      left
      exact ⟨by simpa using hch e (List.mem_cons_self _ _), hinv⟩

theorem Filter_liveBins_le (s : HashSet α) (f : Option α → Option α → Bool) (data : Option α)
    (hinv : s.liveBins ≤ s.entries) :
    (s.Filter f data).liveBins ≤ (s.Filter f data).entries :=
  filterFold_liveBins_le f data s.table.entries s s.table.nodupKeys
    (fun _ he => chainAt_of_mem_entries he) hinv

/-- In every state built by the exported operations without overflow of the
counter, the counter is at least the number of bins reachable across the
chains. -/
theorem ReachableInRange.liveBins_le {n : Nat} {s : HashSet α}
    (hr : ReachableInRange n s) : s.liveBins ≤ s.entries := by
  induction hr with
  | new eql => simp [NewHashSet, HashSet.liveBins, chainsLength]
  | insert h ptr trans data hfit _ ih => exact Insert_liveBins_le n _ h ptr trans data hfit ih
  | remove h ptr _ ih => exact Remove_liveBins_le _ h ptr ih
  | filter f data _ ih => exact Filter_liveBins_le _ f data ih
  | free _ _ => simp [HashSet.Free, HashSet.liveBins, chainsLength]

/-- C8 as amended: when the chain at `h` holds an element matching `k`,
`Remove(h, k)` returns the first matching element of the chain, which is what
`Find(h, k)` returned before the call, and `Count()` is decremented as a
`uint`: it drops by exactly one when it was positive, as it is in every state
built without overflow of the counter, and wraps around to the largest `uint`
when it was 0. -/
theorem Remove_present (s : HashSet α) (h : HashValue) (k : Option α)
    (hex : ∃ b ∈ s.chainAt h, s.eql k b.elt = true) :
    ∃ b, (s.chainAt h).find? (fun b => s.eql k b.elt) = some b ∧
      (s.Remove h k).1 = b.elt ∧
      (s.Remove h k).1 = s.Find h k ∧
      (0 < s.Count → (s.Remove h k).2.Count + 1 = s.Count) ∧
      (s.Count = 0 → (s.Remove h k).2.Count = maxUint) ∧
      (∀ n, ReachableInRange n s → (s.Remove h k).2.Count + 1 = s.Count) := by
  obtain ⟨bin, next, hf, _, hfind⟩ := findBin_cons_of_mem hex
  obtain ⟨before, _, _, hw⟩ := findBin_split s.eql k (s.chainAt h)
  rw [hf] at hw
  obtain ⟨h1, h2, _, _, _, _⟩ := Remove_of_found hw
  have hlen := chainAt_length_le_liveBins s h
  obtain ⟨b, hb, _⟩ := hex
  have hpos := List.length_pos_of_mem hb
  refine ⟨bin, hfind, h1, ?_, ?_, ?_, ?_⟩
  · rw [h1, Find_of_found hf]
  · intro hc
    simp only [HashSet.Count, h2] at hc ⊢
    rw [uintDec_of_pos hc]
    omega
  · intro hc
    simp only [HashSet.Count, h2] at hc ⊢
    simp [uintDec, hc]
  · intro n hr
    have hlive := hr.liveBins_le
    simp only [HashSet.Count, h2]
    rw [uintDec_of_pos (by omega)]
    omega

/-! ## Where the code departs from the contract -/

/-- C1: on the chain `C, B, A` of hash 1 all three elements are found.
Removing the head `C` returns `C` but deletes the whole map entry, so `A` and
`B` are no longer found afterwards.  Removing the middle `B` or the tail `A`
keeps the other two findable. -/
theorem Remove_head_drops_chain (n : Nat) :
    (setABC n).Find 1 (some 10) = some 10 ∧ (setABC n).Find 1 (some 20) = some 20 ∧
      (setABC n).Find 1 (some 30) = some 30 ∧
      ((setABC n).Remove 1 (some 30)).1 = some 30 ∧
      ((setABC n).Remove 1 (some 30)).2.Find 1 (some 10) = none ∧
      ((setABC n).Remove 1 (some 30)).2.Find 1 (some 20) = none ∧
      ((setABC n).Remove 1 (some 20)).2.Find 1 (some 10) = some 10 ∧
      ((setABC n).Remove 1 (some 20)).2.Find 1 (some 30) = some 30 ∧
      ((setABC n).Remove 1 (some 10)).2.Find 1 (some 20) = some 20 ∧
      ((setABC n).Remove 1 (some 10)).2.Find 1 (some 30) = some 30 := by
  simp [setABC, setAB, HashSet.Insert, NewHashSet, HashSet.chainAt, findBin, payload, keyEql,
    HashSet.Find, HashSet.Remove, removeWalk, HashSet.Recycle]

/-- C2: on the chain `B, A` the filter function `notB` rejects the head `B` and
accepts `A`.  `Each` visits `B, A` before `Filter` and nothing after it: the
accepted element `A` is gone as well and `Find(1, A)` returns the default. -/
theorem Filter_head_drops_chain (n : Nat) :
    (setAB n).Each = [some 20, some 10] ∧ notB (some 10) none = true ∧
      notB (some 20) none = false ∧
      ((setAB n).Filter notB none).Each = [] ∧
      ((setAB n).Filter notB none).Find 1 (some 10) = none := by
  simp [setAB, HashSet.Insert, NewHashSet, HashSet.chainAt, findBin, payload, keyEql,
    HashSet.Find, HashSet.Filter, filterLoop, HashSet.Each, eachChain, HashSet.Recycle, notB,
    AList.insert_entries]

/-- C3: after the two insertions of `setAB`, `Remove(1, B)` returns `B` and
`Remove(1, A)` returns nil; `Count()` is then 1, not 2 - 2 = 0. -/
theorem Count_after_head_removal (n : Nat) :
    (setAB n).Count = 2 ∧ ((setAB n).Remove 1 (some 20)).1 = some 20 ∧
      (((setAB n).Remove 1 (some 20)).2.Remove 1 (some 10)).1 = none ∧
      (((setAB n).Remove 1 (some 20)).2.Remove 1 (some 10)).2.Count = 1 := by
  simp [setAB, HashSet.Insert, NewHashSet, HashSet.chainAt, findBin, payload, keyEql,
    HashSet.Count, uintInc, HashSet.Remove, removeWalk, HashSet.Recycle, uintDec]

/-- C4: reachable states in which `Count()` exceeds the number of live bins:
after `Remove` of the head `B` of the chain `B, A` the counter is 1 with no
bin left; after `Filter` rejecting that head likewise; after `Free` the counter
is still 2 with no bin left. -/
theorem Count_exceeds_liveBins (n : Nat) :
    Reachable n ((setAB n).Remove 1 (some 20)).2 ∧
      ((setAB n).Remove 1 (some 20)).2.Count = 1 ∧
      ((setAB n).Remove 1 (some 20)).2.liveBins = 0 ∧
      ((setAB n).Remove 1 (some 20)).2.Each = [] ∧
      ((setAB n).Filter notB none).Count = 1 ∧
      ((setAB n).Filter notB none).liveBins = 0 ∧
      (setAB n).Free.Count = 2 ∧ (setAB n).Free.liveBins = 0 := by
  refine ⟨Reachable.remove 1 (some 20) (Reachable.insert 1 (some 20) none (some 20)
    (Reachable.insert 1 (some 10) none (some 10) (Reachable.new keyEql))), ?_⟩
  simp [setAB, HashSet.Insert, NewHashSet, HashSet.chainAt, findBin, payload, keyEql,
    HashSet.Count, uintInc, HashSet.Remove, removeWalk, HashSet.Recycle, uintDec, HashSet.liveBins,
    chainsLength, HashSet.Each, eachChain, HashSet.Filter, filterLoop, notB, HashSet.Free,
    AList.insert_entries, AList.erase]

/-! ## The theorems at concrete sets -/

/-- Instance of C5: `A` is in the chain `B, A`; inserting it again with other
data returns `A` and changes nothing. -/
theorem Insert_existing_witness :
    (∃ b ∈ (setAB 2).chainAt 1, (setAB 2).eql (some 10) b.elt = true) ∧
      ∃ b, ((setAB 2).chainAt 1).find? (fun b => (setAB 2).eql (some 10) b.elt) = some b ∧
        ((setAB 2).Insert 2 1 (some 10) none (some 99)).1 = b.elt ∧
        ((setAB 2).Insert 2 1 (some 10) none (some 99)).2 = setAB 2 ∧
        ((setAB 2).Insert 2 1 (some 10) none (some 99)).2.Count = (setAB 2).Count :=
  have hex : ∃ b ∈ (setAB 2).chainAt 1, (setAB 2).eql (some 10) b.elt = true :=
    ⟨⟨some 10, 1⟩, by decide, by decide⟩
  ⟨hex, Insert_existing 2 (setAB 2) 1 (some 10) none (some 99) hex⟩

/-- Instance of C6: `C` is not in the chain `B, A`; inserting it returns `C`
and the counter, 2 before, grows by one. -/
theorem Insert_absent_witness :
    (∀ b ∈ (setAB 2).chainAt 1, (setAB 2).eql (some 30) b.elt = false) ∧
      ((setAB 2).Insert 2 1 (some 30) none (some 30)).1 = some 30 ∧
      ((setAB 2).Insert 2 1 (some 30) none (some 30)).2.Count =
        ((setAB 2).Count + 1) % 2 ^ 64 ∧
      ((setAB 2).Count < maxUint →
        ((setAB 2).Insert 2 1 (some 30) none (some 30)).2.Count = (setAB 2).Count + 1) ∧
      ((setAB 2).Count = maxUint →
        ((setAB 2).Insert 2 1 (some 30) none (some 30)).2.Count = 0) ∧
      ((setAB 2).Insert 2 1 (some 30) none (some 30)).2.chainAt 1 =
        { elt := ((setAB 2).Insert 2 1 (some 30) none (some 30)).1, hash := 1 } ::
          (setAB 2).chainAt 1 :=
  have habs : ∀ b ∈ (setAB 2).chainAt 1, (setAB 2).eql (some 30) b.elt = false := by decide
  ⟨habs, Insert_absent 2 (setAB 2) 1 (some 30) none (some 30) habs⟩

/-- Instance of C7: after inserting `C` into the chain `B, A`, `Find(1, C)`
returns what `Insert` returned. -/
theorem Find_after_Insert_witness :
    (setAB 2).eql (some 30) (some 30) = true ∧
      ((setAB 2).Insert 2 1 (some 30) none (some 30)).2.Find 1 (some 30) =
        ((setAB 2).Insert 2 1 (some 30) none (some 30)).1 :=
  have hself : (setAB 2).eql (some 30) (some 30) = true := by decide
  ⟨hself, Find_after_Insert 2 (setAB 2) 1 (some 30) none (some 30) hself⟩

/-- Instance of C8: removing `A` from the chain `B, A`. -/
theorem Remove_present_witness :
    (∃ b ∈ (setAB 2).chainAt 1, (setAB 2).eql (some 10) b.elt = true) ∧
      ∃ b, ((setAB 2).chainAt 1).find? (fun b => (setAB 2).eql (some 10) b.elt) = some b ∧
        ((setAB 2).Remove 1 (some 10)).1 = b.elt ∧
        ((setAB 2).Remove 1 (some 10)).1 = (setAB 2).Find 1 (some 10) ∧
        (0 < (setAB 2).Count → ((setAB 2).Remove 1 (some 10)).2.Count + 1 = (setAB 2).Count) ∧
        ((setAB 2).Count = 0 → ((setAB 2).Remove 1 (some 10)).2.Count = maxUint) ∧
        (∀ n, ReachableInRange n (setAB 2) →
          ((setAB 2).Remove 1 (some 10)).2.Count + 1 = (setAB 2).Count) :=
  have hex : ∃ b ∈ (setAB 2).chainAt 1, (setAB 2).eql (some 10) b.elt = true :=
    ⟨⟨some 10, 1⟩, by decide, by decide⟩
  ⟨hex, Remove_present (setAB 2) 1 (some 10) hex⟩

/-- Instance of C9: `B` occurs once in the chain `C, B, A`; after its removal
`Find(1, B)` returns the default value. -/
theorem Find_after_Remove_witness :
    (((setABC 2).chainAt 1).filter (fun b => (setABC 2).eql (some 20) b.elt)).length ≤ 1 ∧
      ((setABC 2).Remove 1 (some 20)).2.Find 1 (some 20) = (setABC 2).defaultValue :=
  have hone : (((setABC 2).chainAt 1).filter
      (fun b => (setABC 2).eql (some 20) b.elt)).length ≤ 1 := by decide
  ⟨hone, Find_after_Remove (setABC 2) 1 (some 20) hone⟩

/-- Instance of C10: `C` is not in the chain `B, A`, and hash 7 has no chain. -/
theorem Remove_absent_witness :
    (∀ b ∈ (setAB 2).chainAt 7, (setAB 2).eql (some 30) b.elt = false) ∧
      ((setAB 2).Remove 7 (some 30)).1 = none ∧ ((setAB 2).Remove 7 (some 30)).2 = setAB 2 ∧
      ((setAB 2).Remove 7 (some 30)).2.Count = (setAB 2).Count ∧
      (∀ j, ((setAB 2).Remove 7 (some 30)).2.chainAt j = (setAB 2).chainAt j) ∧
      ((setAB 2).Remove 7 (some 30)).2.pooledBins = (setAB 2).pooledBins :=
  have habs : ∀ b ∈ (setAB 2).chainAt 7, (setAB 2).eql (some 30) b.elt = false := by decide
  ⟨habs, Remove_absent (setAB 2) 7 (some 30) habs⟩

/-! ## The inner loop of Filter, step by step -/

theorem filterLoop_cons_keep {f : Option α → Option α → Bool} {data : Option α}
    (i : HashValue) (p : Option (Chain α)) {b : HashSetBin α} (next : Chain α)
    (s : HashSet α) (hb : f b.elt data = true) :
    filterLoop f data i p (b :: next) s =
      filterLoop f data i (some (p.getD [] ++ [b])) next s := by
  simp [filterLoop, hb]

theorem filterLoop_cons_reject {f : Option α → Option α → Bool} {data : Option α}
    (i : HashValue) (p : Option (Chain α)) {b : HashSetBin α} (next : Chain α)
    (s : HashSet α) (hb : ¬ f b.elt data = true) :
    filterLoop f data i p (b :: next) s =
      filterLoop f data i p next (rejectStep i p next s b) := by
  simp [filterLoop, hb, rejectStep]

theorem rejectStep_entries (i : HashValue) (p : Option (Chain α)) (next : Chain α)
    (s : HashSet α) (b : HashSetBin α) :
    (rejectStep i p next s b).entries = uintDec s.entries := by
  unfold rejectStep
  cases p with
  | none => rfl
  | some kept => cases hc : s.chainAt i <;> simp [HashSet.Recycle, hc]

theorem rejectStep_eql (i : HashValue) (p : Option (Chain α)) (next : Chain α)
    (s : HashSet α) (b : HashSetBin α) : (rejectStep i p next s b).eql = s.eql := by
  unfold rejectStep
  cases p with
  | none => rfl
  | some kept => cases hc : s.chainAt i <;> simp [HashSet.Recycle, hc]

theorem rejectStep_defaultValue (i : HashValue) (p : Option (Chain α)) (next : Chain α)
    (s : HashSet α) (b : HashSetBin α) :
    (rejectStep i p next s b).defaultValue = s.defaultValue := by
  unfold rejectStep
  cases p with
  | none => rfl
  | some kept => cases hc : s.chainAt i <;> simp [HashSet.Recycle, hc]

theorem rejectStep_pooledBins (i : HashValue) (p : Option (Chain α)) (next : Chain α)
    (s : HashSet α) (b : HashSetBin α) :
    (rejectStep i p next s b).pooledBins = { b with elt := none } :: s.pooledBins := by
  unfold rejectStep
  cases p with
  | none => rfl
  | some kept => cases hc : s.chainAt i <;> simp [HashSet.Recycle, hc]

theorem rejectStep_table_none (i : HashValue) (next : Chain α) (s : HashSet α)
    (b : HashSetBin α) : (rejectStep i none next s b).table = s.table.insert i [] := rfl

theorem rejectStep_table_some_nil (i : HashValue) (kept next : Chain α) (s : HashSet α)
    (b : HashSetBin α) (hc : s.chainAt i = []) :
    (rejectStep i (some kept) next s b).table = s.table := by
  simp [rejectStep, HashSet.Recycle, hc]

theorem rejectStep_table_some_cons (i : HashValue) (kept next : Chain α) (s : HashSet α)
    (b : HashSetBin α) (hc : s.chainAt i ≠ []) :
    (rejectStep i (some kept) next s b).table = s.table.insert i (kept ++ next) := by
  unfold rejectStep
  cases h : s.chainAt i with
  | nil => exact absurd h hc
  | cons x xs => simp [HashSet.Recycle]

theorem chainAt_eq_of_table {s t : HashSet α} (e : t.table = s.table) (j : HashValue) :
    t.chainAt j = s.chainAt j := by
  simp [HashSet.chainAt, e]

theorem chainAt_of_insert {s t : HashSet α} {i : HashValue} {c : Chain α}
    (e : t.table = s.table.insert i c) : t.chainAt i = c := by
  simp [HashSet.chainAt, e]

theorem liveBins_eq_of_table {s t : HashSet α} (e : t.table = s.table) :
    t.liveBins = s.liveBins := by
  simp [HashSet.liveBins, e]

/-! ## The inner loop of Filter: counter, callbacks and pool -/

theorem filterLoop_entries (f : Option α → Option α → Bool) (data : Option α)
    (i : HashValue) (c : Chain α) :
    ∀ (p : Option (Chain α)) (s : HashSet α), rejected f data c ≤ s.entries →
      (filterLoop f data i p c s).entries + rejected f data c = s.entries := by
  induction c with
  | nil => intro p s _; simp [filterLoop, rejected]
  | cons b next ih =>
    intro p s hle
    by_cases hb : f b.elt data = true
    · rw [filterLoop_cons_keep i p next s hb, rejected_cons_of_keep next hb]
      rw [rejected_cons_of_keep next hb] at hle
      exact ih _ s hle
    · rw [filterLoop_cons_reject i p next s hb, rejected_cons_of_reject next hb]
      rw [rejected_cons_of_reject next hb] at hle
      have he := rejectStep_entries i p next s b
      rw [uintDec_of_pos (by omega)] at he
      have := ih p (rejectStep i p next s b) (by omega)
      omega

theorem filterLoop_eql (f : Option α → Option α → Bool) (data : Option α)
    (i : HashValue) (c : Chain α) :
    ∀ (p : Option (Chain α)) (s : HashSet α), (filterLoop f data i p c s).eql = s.eql := by
  induction c with
  | nil => intro p s; rfl
  | cons b next ih =>
    intro p s
    by_cases hb : f b.elt data = true
    · rw [filterLoop_cons_keep i p next s hb]; exact ih _ s
    · rw [filterLoop_cons_reject i p next s hb, ih, rejectStep_eql]

theorem filterLoop_defaultValue (f : Option α → Option α → Bool) (data : Option α)
    (i : HashValue) (c : Chain α) :
    ∀ (p : Option (Chain α)) (s : HashSet α),
      (filterLoop f data i p c s).defaultValue = s.defaultValue := by
  induction c with
  | nil => intro p s; rfl
  | cons b next ih =>
    intro p s
    by_cases hb : f b.elt data = true
    · rw [filterLoop_cons_keep i p next s hb]; exact ih _ s
    · rw [filterLoop_cons_reject i p next s hb, ih, rejectStep_defaultValue]

theorem filterLoop_pool_cleared (f : Option α → Option α → Bool) (data : Option α)
    (i : HashValue) (c : Chain α) :
    ∀ (p : Option (Chain α)) (s : HashSet α), (∀ b ∈ s.pooledBins, b.elt = none) →
      ∀ b ∈ (filterLoop f data i p c s).pooledBins, b.elt = none := by
  induction c with
  | nil => intro p s hs; exact hs
  | cons b next ih =>
    intro p s hs
    by_cases hb : f b.elt data = true
    · rw [filterLoop_cons_keep i p next s hb]; exact ih _ s hs
    · rw [filterLoop_cons_reject i p next s hb]
      apply ih
      intro x hx
      rw [rejectStep_pooledBins] at hx
      rcases List.mem_cons.1 hx with rfl | hx
      · rfl
      · exact hs x hx

/-! ## The inner loop of Filter: the chain of the entry -/

theorem filterLoop_detached (f : Option α → Option α → Bool) (data : Option α)
    (i : HashValue) (c : Chain α) :
    ∀ (p : Option (Chain α)) (s : HashSet α), s.chainAt i = [] →
      (filterLoop f data i p c s).chainAt i = [] ∧
        (filterLoop f data i p c s).liveBins = s.liveBins := by
  induction c with
  | nil => intro p s hs; exact ⟨hs, rfl⟩
  | cons b next ih =>
    intro p s hs
    by_cases hb : f b.elt data = true
    · rw [filterLoop_cons_keep i p next s hb]; exact ih _ s hs
    · rw [filterLoop_cons_reject i p next s hb]
      cases p with
      | none =>
        have ht := rejectStep_table_none i next s b
        have hl := liveBins_insert ht
        rw [hs] at hl
        simp only [List.length_nil, Nat.add_zero] at hl
        obtain ⟨h1, h2⟩ := ih none _ (chainAt_of_insert ht)
        exact ⟨h1, h2.trans hl⟩
      | some kept =>
        have ht := rejectStep_table_some_nil i kept next s b hs
        obtain ⟨h1, h2⟩ := ih (some kept) _ ((chainAt_eq_of_table ht i).trans hs)
        exact ⟨h1, h2.trans (liveBins_eq_of_table ht)⟩

theorem filterLoop_attached (f : Option α → Option α → Bool) (data : Option α)
    (i : HashValue) (c : Chain α) :
    ∀ (kept : Chain α) (s : HashSet α), kept ≠ [] → s.chainAt i = kept ++ c →
      (filterLoop f data i (some kept) c s).chainAt i =
          kept ++ c.filter (fun x => f x.elt data) ∧
        (filterLoop f data i (some kept) c s).liveBins + rejected f data c = s.liveBins := by
  induction c with
  | nil =>
    intro kept s _ hs
    simp [filterLoop, rejected, hs]
  | cons b next ih =>
    intro kept s hk hs
    by_cases hb : f b.elt data = true
    · rw [filterLoop_cons_keep i (some kept) next s hb, rejected_cons_of_keep next hb]
      have := ih (kept ++ [b]) s (by simp) (by simpa using hs)
      simpa [List.filter_cons_of_pos, hb] using this
    · rw [filterLoop_cons_reject i (some kept) next s hb, rejected_cons_of_reject next hb]
      have hne : s.chainAt i ≠ [] := by rw [hs]; simp
      have ht := rejectStep_table_some_cons i kept next s b hne
      have hl := liveBins_insert ht
      rw [hs] at hl
      simp only [List.length_append, List.length_cons] at hl
      obtain ⟨h1, h2⟩ := ih kept _ hk (chainAt_of_insert ht)
      refine ⟨?_, by omega⟩
      rw [h1]
      simp [List.filter_cons, hb]

theorem rejected_add_retained (f : Option α → Option α → Bool) (data : Option α)
    (c : Chain α) :
    rejected f data c + (c.filter (fun x => f x.elt data)).length = c.length := by
  induction c with
  | nil => rfl
  | cons x xs ih =>
    unfold rejected at ih ⊢
    by_cases hx : f x.elt data = true <;> simp [List.filter_cons, hx] <;> omega

theorem filterLoop_start (f : Option α → Option α → Bool) (data : Option α)
    (i : HashValue) (c : Chain α) (s : HashSet α) (hs : s.chainAt i = c) :
    (filterLoop f data i none c s).chainAt i = filterChain f data c ∧
      (filterLoop f data i none c s).liveBins + c.length =
        s.liveBins + (filterChain f data c).length := by
  cases c with
  | nil => simp [filterLoop, filterChain, hs]
  | cons b next =>
    by_cases hb : f b.elt data = true
    · rw [filterLoop_cons_keep i none next s hb]
      obtain ⟨h1, h2⟩ := filterLoop_attached f data i next [b] s (by simp) (by simpa using hs)
      have hr := rejected_add_retained f data next
      simp only [Option.getD_none, List.nil_append] at h1 h2 ⊢
      refine ⟨by simp [filterChain, hb, h1, List.filter_cons], ?_⟩
      simp only [filterChain, hb, if_true, List.filter_cons, List.length_cons]
      omega
    · rw [filterLoop_cons_reject i none next s hb]
      have ht := rejectStep_table_none i next s b
      have hl := liveBins_insert ht
      rw [hs] at hl
      obtain ⟨h1, h2⟩ := filterLoop_detached f data i next none _ (chainAt_of_insert ht)
      refine ⟨by simp [filterChain, hb, h1], ?_⟩
      simp only [filterChain, hb, Bool.false_eq_true, if_false, List.length_nil,
        List.length_cons] at hl ⊢
      omega

/-! ## Filter as a whole -/

theorem filterFold_eql (f : Option α → Option α → Bool) (data : Option α)
    (l : List (Sigma (fun _ : HashValue => Chain α))) :
    ∀ (s : HashSet α),
      (l.foldl (fun s e => filterLoop f data e.1 none e.2 s) s).eql = s.eql ∧
      (l.foldl (fun s e => filterLoop f data e.1 none e.2 s) s).defaultValue =
        s.defaultValue := by
  induction l with
  | nil => intro s; exact ⟨rfl, rfl⟩
  | cons e l ih =>
    intro s
    simp only [List.foldl_cons]
    obtain ⟨h1, h2⟩ := ih (filterLoop f data e.1 none e.2 s)
    exact ⟨h1.trans (filterLoop_eql f data e.1 e.2 none s),
      h2.trans (filterLoop_defaultValue f data e.1 e.2 none s)⟩

theorem Filter_eql (s : HashSet α) (f : Option α → Option α → Bool) (data : Option α) :
    (s.Filter f data).eql = s.eql :=
  (filterFold_eql f data s.table.entries s).1

theorem Filter_defaultValue (s : HashSet α) (f : Option α → Option α → Bool)
    (data : Option α) : (s.Filter f data).defaultValue = s.defaultValue :=
  (filterFold_eql f data s.table.entries s).2

theorem filterFold_pool_cleared (f : Option α → Option α → Bool) (data : Option α)
    (l : List (Sigma (fun _ : HashValue => Chain α))) :
    ∀ (s : HashSet α), (∀ b ∈ s.pooledBins, b.elt = none) →
      ∀ b ∈ (l.foldl (fun s e => filterLoop f data e.1 none e.2 s) s).pooledBins,
        b.elt = none := by
  induction l with
  | nil => intro s hs; exact hs
  | cons e l ih =>
    intro s hs
    simp only [List.foldl_cons]
    exact ih _ (filterLoop_pool_cleared f data e.1 e.2 none s hs)

theorem filterFold_entries (f : Option α → Option α → Bool) (data : Option α)
    (l : List (Sigma (fun _ : HashValue => Chain α))) :
    ∀ (s : HashSet α), rejectedEntries f data l ≤ s.entries →
      (l.foldl (fun s e => filterLoop f data e.1 none e.2 s) s).entries +
        rejectedEntries f data l = s.entries := by
  induction l with
  | nil => intro s _; simp [rejectedEntries]
  | cons e l ih =>
    intro s hle
    simp only [rejectedEntries, List.map_cons, List.sum_cons, List.foldl_cons] at hle ⊢
    have h1 := filterLoop_entries f data e.1 e.2 none s (by omega)
    have h2 := ih (filterLoop f data e.1 none e.2 s) (by
      simp only [rejectedEntries]; omega)
    simp only [rejectedEntries] at h2
    omega

theorem filterFold_chainAt (f : Option α → Option α → Bool) (data : Option α)
    (l : List (Sigma (fun _ : HashValue => Chain α))) :
    ∀ (s : HashSet α), l.NodupKeys → (∀ e ∈ l, s.chainAt e.1 = e.2) →
      ∀ j, (l.foldl (fun s e => filterLoop f data e.1 none e.2 s) s).chainAt j =
        if j ∈ l.keys then filterChain f data (s.chainAt j) else s.chainAt j := by
  induction l with
  | nil => intro s _ _ j; simp
  | cons e l ih =>
    intro s hnd hch j
    rw [List.nodupKeys_cons] at hnd
    simp only [List.foldl_cons]
    have hrest : ∀ e' ∈ l, (filterLoop f data e.1 none e.2 s).chainAt e'.1 = e'.2 := by
      intro e' he'
      have hne : e'.1 ≠ e.1 := by
        intro heq
        exact hnd.1 (heq ▸ List.mem_keys_of_mem he')
      rw [filterLoop_chainAt_ne f data hne]
      exact hch e' (List.mem_cons_of_mem _ he')
    rw [ih _ hnd.2 hrest j]
    have he := hch e (List.mem_cons_self _ _)
    by_cases hj : j = e.1
    · subst hj
      have h1 := (filterLoop_start f data e.1 e.2 s he).1
      have hin : e.1 ∈ (e :: l).keys := List.mem_keys_of_mem (List.mem_cons_self _ _)
      rw [if_neg hnd.1, if_pos hin, h1, he]
    · rw [filterLoop_chainAt_ne f data hj]
      have hiff : j ∈ (e :: l).keys ↔ j ∈ l.keys := by
        obtain ⟨a, c⟩ := e
        rw [List.keys_cons, List.mem_cons]
        exact ⟨fun h => h.resolve_left hj, Or.inr⟩
      by_cases hjl : j ∈ l.keys
      · rw [if_pos hjl, if_pos (hiff.2 hjl)]
      · rw [if_neg hjl, if_neg (fun h => hjl (hiff.1 h))]

theorem filterFold_liveBins (f : Option α → Option α → Bool) (data : Option α)
    (l : List (Sigma (fun _ : HashValue => Chain α))) :
    ∀ (s : HashSet α), l.NodupKeys → (∀ e ∈ l, s.chainAt e.1 = e.2) →
      (l.foldl (fun s e => filterLoop f data e.1 none e.2 s) s).liveBins + chainsLength l =
        s.liveBins + filteredLength f data l := by
  induction l with
  | nil => intro s _ _; simp [chainsLength, filteredLength]
  | cons e l ih =>
    intro s hnd hch
    rw [List.nodupKeys_cons] at hnd
    simp only [List.foldl_cons]
    have hrest : ∀ e' ∈ l, (filterLoop f data e.1 none e.2 s).chainAt e'.1 = e'.2 := by
      intro e' he'
      have hne : e'.1 ≠ e.1 := by
        intro heq
        exact hnd.1 (heq ▸ List.mem_keys_of_mem he')
      rw [filterLoop_chainAt_ne f data hne]
      exact hch e' (List.mem_cons_of_mem _ he')
    have h1 := ih _ hnd.2 hrest
    have h2 := (filterLoop_start f data e.1 e.2 s (hch e (List.mem_cons_self _ _))).2
    simp only [chainsLength, filteredLength, List.map_cons, List.sum_cons] at h1 ⊢
    omega

theorem chainAt_of_not_mem_keys {s : HashSet α} {j : HashValue} (hj : j ∉ s.table.keys) :
    s.chainAt j = [] := by
  have : s.table.lookup j = none := AList.lookup_eq_none.2 (fun h => hj (AList.mem_keys.1 h))
  simp [HashSet.chainAt, this]

/-- What `Filter` does to every chain: the chain of `j` becomes `filterChain`
of the chain it was. -/
theorem Filter_chainAt (s : HashSet α) (f : Option α → Option α → Bool) (data : Option α)
    (j : HashValue) : (s.Filter f data).chainAt j = filterChain f data (s.chainAt j) := by
  have h := filterFold_chainAt f data s.table.entries s s.table.nodupKeys
    (fun _ he => chainAt_of_mem_entries he) j
  unfold HashSet.Filter
  rw [h]
  split
  · rfl
  · rename_i hj
    rw [chainAt_of_not_mem_keys hj]
    rfl

theorem Filter_liveBins (s : HashSet α) (f : Option α → Option α → Bool) (data : Option α) :
    (s.Filter f data).liveBins = filteredLength f data s.table.entries := by
  have h := filterFold_liveBins f data s.table.entries s s.table.nodupKeys
    (fun _ he => chainAt_of_mem_entries he)
  unfold HashSet.Filter
  simp only [HashSet.liveBins] at h ⊢
  omega

theorem Filter_pool_cleared (s : HashSet α) (f : Option α → Option α → Bool)
    (data : Option α) (hs : ∀ b ∈ s.pooledBins, b.elt = none) :
    ∀ b ∈ (s.Filter f data).pooledBins, b.elt = none :=
  filterFold_pool_cleared f data s.table.entries s hs

theorem rejectedEntries_le_chainsLength (f : Option α → Option α → Bool) (data : Option α)
    (l : List (Sigma (fun _ : HashValue => Chain α))) :
    rejectedEntries f data l ≤ chainsLength l := by
  induction l with
  | nil => simp [rejectedEntries, chainsLength]
  | cons e l ih =>
    have := rejected_le_length f data e.2
    simp only [rejectedEntries, chainsLength, List.map_cons, List.sum_cons] at ih ⊢
    omega

theorem Filter_entries (s : HashSet α) (f : Option α → Option α → Bool) (data : Option α)
    (hle : rejectedEntries f data s.table.entries ≤ s.entries) :
    (s.Filter f data).entries + rejectedEntries f data s.table.entries = s.entries :=
  filterFold_entries f data s.table.entries s hle

/-! ## Each and the live bins -/

theorem eachChain_eq_map (c : Chain α) : eachChain c = c.map (fun b => b.elt) := by
  induction c with
  | nil => rfl
  | cons b next ih => simp [eachChain, ih]

theorem eachEntries_filter_length (p : Option α → Bool)
    (l : List (Sigma (fun _ : HashValue => Chain α))) :
    (((l.map (fun e => eachChain e.2)).flatten).filter p).length =
      (l.map (fun e => (e.2.filter (fun b => p b.elt)).length)).sum := by
  induction l with
  | nil => rfl
  | cons e l ih =>
    simp only [List.map_cons, List.flatten_cons, List.filter_append, List.length_append,
      List.sum_cons]
    rw [ih, eachChain_eq_map, List.filter_map, List.length_map]
    rfl

theorem Each_filter_length (s : HashSet α) (p : Option α → Bool) :
    (s.Each.filter p).length =
      (s.table.entries.map (fun e => (e.2.filter (fun b => p b.elt)).length)).sum :=
  eachEntries_filter_length p s.table.entries

theorem Each_length (s : HashSet α) : s.Each.length = s.liveBins := by
  have h := Each_filter_length s (fun _ => true)
  simpa [HashSet.liveBins, chainsLength] using h

theorem Each_rejected_length (s : HashSet α) (f : Option α → Option α → Bool)
    (data : Option α) :
    (s.Each.filter (fun e => !f e data)).length = rejectedEntries f data s.table.entries :=
  Each_filter_length s (fun e => !f e data)

theorem rejectedEntries_le_liveBins (s : HashSet α) (f : Option α → Option α → Bool)
    (data : Option α) : rejectedEntries f data s.table.entries ≤ s.liveBins :=
  rejectedEntries_le_chainsLength f data s.table.entries

theorem rejectedEntries_eq_zero (f : Option α → Option α → Bool) (data : Option α)
    (l : List (Sigma (fun _ : HashValue => Chain α)))
    (hall : ∀ e ∈ l, ∀ b ∈ e.2, f b.elt data = true) : rejectedEntries f data l = 0 := by
  induction l with
  | nil => rfl
  | cons e l ih =>
    have h1 : rejected f data e.2 = 0 := by
      unfold rejected
      rw [List.length_eq_zero, List.filter_eq_nil_iff]
      intro b hb
      simp [hall e (List.mem_cons_self _ _) b hb]
    have h2 := ih (fun e' he' => hall e' (List.mem_cons_of_mem _ he'))
    simp only [rejectedEntries, List.map_cons, List.sum_cons] at h2 ⊢
    omega

theorem mem_Each_of_mem_entries {s : HashSet α} {e : Sigma (fun _ : HashValue => Chain α)}
    {b : HashSetBin α} (he : e ∈ s.table.entries) (hb : b ∈ e.2) : b.elt ∈ s.Each := by
  unfold HashSet.Each
  rw [List.mem_flatten]
  exact ⟨eachChain e.2, List.mem_map.2 ⟨e, he, rfl⟩, by
    rw [eachChain_eq_map]; exact List.mem_map.2 ⟨b, hb, rfl⟩⟩

/-- C11: in a set whose counter equals the number of live elements, `Filter`
lowers `Count()` by exactly the number of live elements the filter function
rejects, and leaves it unchanged when every live element is accepted. -/
theorem Filter_Count (s : HashSet α) (f : Option α → Option α → Bool) (data : Option α)
    (hcount : s.Count = s.Each.length) :
    (s.Each.filter (fun e => !f e data)).length ≤ s.Count ∧
      (s.Filter f data).Count + (s.Each.filter (fun e => !f e data)).length = s.Count ∧
      ((∀ e ∈ s.Each, f e data = true) → (s.Filter f data).Count = s.Count) := by
  have hr := Each_rejected_length s f data
  have hle := rejectedEntries_le_liveBins s f data
  rw [Each_length] at hcount
  simp only [HashSet.Count] at hcount ⊢
  have he := Filter_entries s f data (by omega)
  refine ⟨by omega, by omega, ?_⟩
  intro hall
  have hz := rejectedEntries_eq_zero f data s.table.entries
    (fun e he b hb => hall _ (mem_Each_of_mem_entries he hb))
  omega

theorem filterChain_eq_filter {f : Option α → Option α → Bool} {data : Option α}
    {c : Chain α}
    (h : (∃ b next, c = b :: next ∧ f b.elt data = true) ∨ (∀ b ∈ c, f b.elt data = false)) :
    filterChain f data c = c.filter (fun b => f b.elt data) := by
  cases c with
  | nil => rfl
  | cons x xs =>
    by_cases hx : f x.elt data = true
    · simp [filterChain, hx]
    · rcases h with ⟨b, next, hc, hb⟩ | hall
      · cases hc
        exact absurd hb hx
      · have : (x :: xs).filter (fun b => f b.elt data) = [] := by
          rw [List.filter_eq_nil_iff]
          intro b hb
          simp [hall b hb]
        simp [filterChain, hx, this]

theorem rejectedEntries_add_retained (f : Option α → Option α → Bool) (data : Option α)
    (l : List (Sigma (fun _ : HashValue => Chain α))) :
    rejectedEntries f data l +
        (l.map (fun e => (e.2.filter (fun b => f b.elt data)).length)).sum =
      chainsLength l := by
  induction l with
  | nil => rfl
  | cons e l ih =>
    have := rejected_add_retained f data e.2
    simp only [rejectedEntries, chainsLength, List.map_cons, List.sum_cons] at ih ⊢
    omega

theorem filteredLength_eq_retained (f : Option α → Option α → Bool) (data : Option α)
    (l : List (Sigma (fun _ : HashValue => Chain α)))
    (h : ∀ e ∈ l, filterChain f data e.2 = e.2.filter (fun b => f b.elt data)) :
    filteredLength f data l =
      (l.map (fun e => (e.2.filter (fun b => f b.elt data)).length)).sum := by
  induction l with
  | nil => rfl
  | cons e l ih =>
    have h1 := h e (List.mem_cons_self _ _)
    have h2 := ih (fun e' he' => h e' (List.mem_cons_of_mem _ he'))
    simp only [filteredLength, List.map_cons, List.sum_cons] at h2 ⊢
    rw [h1, h2]

/-- C19: when in every chain the head is accepted by the filter function or no
element of the chain is, `Filter` leaves in each chain exactly its accepted
elements in their original order; if `Count()` was the number of live elements
before, it is the number of retained elements afterwards. -/
theorem Filter_head_accepted (s : HashSet α) (f : Option α → Option α → Bool)
    (data : Option α)
    (hhead : ∀ j, (∃ b next, s.chainAt j = b :: next ∧ f b.elt data = true) ∨
      (∀ b ∈ s.chainAt j, f b.elt data = false)) :
    (∀ j, (s.Filter f data).chainAt j = (s.chainAt j).filter (fun b => f b.elt data)) ∧
      (s.Count = s.Each.length →
        (s.Filter f data).Count = (s.Each.filter (fun e => f e data)).length ∧
        (s.Filter f data).Each.length = (s.Each.filter (fun e => f e data)).length) := by
  refine ⟨fun j => ?_, fun hcount => ?_⟩
  · rw [Filter_chainAt, filterChain_eq_filter (hhead j)]
  · have hfl := filteredLength_eq_retained f data s.table.entries (fun e he => by
      have := hhead e.1
      rw [chainAt_of_mem_entries he] at this
      exact filterChain_eq_filter this)
    have hsum := rejectedEntries_add_retained f data s.table.entries
    have hkeep := Each_filter_length s (fun e => f e data)
    have hle := rejectedEntries_le_liveBins s f data
    rw [Each_length] at hcount
    rw [Each_length, Filter_liveBins, hfl, hkeep]
    simp only [HashSet.Count] at hcount ⊢
    have he := Filter_entries s f data (by omega)
    simp only [HashSet.liveBins] at hcount hle
    refine ⟨by omega, trivial⟩

/-- C20 as amended: in every state built by `Insert`, `Remove`, `Filter` and
`Free` without overflow of the counter (no `Insert` adds a bin while the
counter is the largest `uint`) the counter is at least the number of live
bins.  Hence the decrement of `Remove`, executed when a match exists, meets a
positive counter, and the decrements of `Filter`, one per rejected live
element, never exceed the counter: neither wraps around. -/
theorem counter_never_wraps (n : Nat) (s : HashSet α) (hr : ReachableInRange n s) :
    s.liveBins ≤ s.Count ∧
      (∀ h k, (∃ b ∈ s.chainAt h, s.eql k b.elt = true) →
        0 < s.Count ∧ (s.Remove h k).2.Count + 1 = s.Count) ∧
      (∀ h k, (∀ b ∈ s.chainAt h, s.eql k b.elt = false) →
        (s.Remove h k).2.Count = s.Count) ∧
      (∀ f data, (s.Each.filter (fun e => !f e data)).length ≤ s.Count ∧
        (s.Filter f data).Count + (s.Each.filter (fun e => !f e data)).length = s.Count) := by
  have hlive := hr.liveBins_le
  refine ⟨hlive, ?_, ?_, ?_⟩
  · intro h k hex
    obtain ⟨bin, next, hf, _, _⟩ := findBin_cons_of_mem hex
    obtain ⟨before, _, _, hw⟩ := findBin_split s.eql k (s.chainAt h)
    rw [hf] at hw
    obtain ⟨_, h2, _, _, _, _⟩ := Remove_of_found hw
    have hlen := chainAt_length_le_liveBins s h
    obtain ⟨b, hb, _⟩ := hex
    have hpos := List.length_pos_of_mem hb
    simp only [HashSet.Count, h2]
    rw [uintDec_of_pos (by omega)]
    omega
  · intro h k habs
    rw [Remove_of_absent (findBin_eq_nil habs)]
  · intro f data
    have hrej := Each_rejected_length s f data
    have hle := rejectedEntries_le_liveBins s f data
    simp only [HashSet.Count]
    have he := Filter_entries s f data (by omega)
    omega

/-! ## The pool -/

theorem recycleFresh_pool_cleared (n : Nat) :
    ∀ (s : HashSet α), (∀ b ∈ s.pooledBins, b.elt = none) →
      ∀ b ∈ (recycleFresh n s).pooledBins, b.elt = none := by
  induction n with
  | zero => intro s hs; exact hs
  | succ n ih =>
    intro s hs
    apply ih
    intro b hb
    rcases List.mem_cons.1 hb with rfl | hb
    · rfl
    · exact hs b hb

theorem GetUnusedBin_cleared (n : Nat) (s : HashSet α)
    (hs : ∀ b ∈ s.pooledBins, b.elt = none) :
    (s.GetUnusedBin n).1.elt = none ∧ ∀ b ∈ (s.GetUnusedBin n).2.pooledBins, b.elt = none := by
  unfold HashSet.GetUnusedBin
  cases hp : s.pooledBins with
  | nil =>
    refine ⟨rfl, ?_⟩
    exact recycleFresh_pool_cleared n s hs
  | cons bin next =>
    rw [hp] at hs
    exact ⟨hs bin (List.mem_cons_self _ _), fun b hb => hs b (List.mem_cons_of_mem _ hb)⟩

theorem Insert_pooledBins_of_absent (n : Nat) {s : HashSet α} {h : HashValue} {k : Option α}
    (trans : Option (Option α → Option α → Option α)) (data : Option α)
    (hf : findBin s.eql k (s.chainAt h) = []) :
    (s.Insert n h k trans data).2.pooledBins = (s.GetUnusedBin n).2.pooledBins := by
  simp [HashSet.Insert, hf]

/-- In every state built by the exported operations the bins of the pool hold
no payload. -/
theorem Reachable.pool_cleared {n : Nat} {s : HashSet α} (hr : Reachable n s) :
    ∀ b ∈ s.pooledBins, b.elt = none := by
  induction hr with
  | new eql => intro b hb; cases hb
  | @insert s h ptr trans data _ ih =>
    cases hf : findBin s.eql ptr (s.chainAt h) with
    | cons bin next => rw [Insert_of_found hf]; exact ih
    | nil =>
      rw [Insert_pooledBins_of_absent n trans data hf]
      exact (GetUnusedBin_cleared n s ih).2
  | @remove s h ptr _ ih =>
    obtain ⟨before, _, _, hw⟩ := findBin_split s.eql ptr (s.chainAt h)
    cases hf : findBin s.eql ptr (s.chainAt h) with
    | nil => rw [Remove_of_absent hf]; exact ih
    | cons bin next =>
      rw [hf] at hw
      obtain ⟨_, _, _, h4, _, _⟩ := Remove_of_found hw
      rw [h4]
      intro b hb
      rcases List.mem_cons.1 hb with rfl | hb
      · rfl
      · exact ih b hb
  | filter f data _ ih => exact Filter_pool_cleared _ f data ih
  | free _ ih => exact ih

/-- C18: in every state built by `Insert`, `Remove`, `Filter` and `Free` every
bin of the pool has a nil payload, so the bin `GetUnusedBin` hands out has a
nil payload and the pool it leaves is cleared as well. -/
theorem pool_holds_no_payload (n : Nat) (s : HashSet α) (hr : Reachable n s) :
    (∀ b ∈ s.pooledBins, b.elt = none) ∧ (s.GetUnusedBin n).1.elt = none ∧
      ∀ b ∈ (s.GetUnusedBin n).2.pooledBins, b.elt = none :=
  ⟨hr.pool_cleared, GetUnusedBin_cleared n s hr.pool_cleared⟩

/-- C12: after `Free` on the set holding `B, A` nothing is found and `Each`
visits nothing, but `Count()` still returns 2. -/
theorem Free_keeps_Count (n : Nat) :
    (setAB n).Count = 2 ∧ (setAB n).Free.Each = [] ∧
      (∀ h k, (setAB n).Free.Find h k = (setAB n).Free.defaultValue) ∧
      (setAB n).Free.Count = 2 := by
  refine ⟨?_, ?_, ?_, ?_⟩
  · simp [setAB, HashSet.Insert, NewHashSet, HashSet.chainAt, findBin, payload, keyEql,
      HashSet.Count, uintInc]
  · simp [HashSet.Free, HashSet.Each]
  · intro h k
    simp [HashSet.Free, HashSet.Find, HashSet.chainAt, findBin]
  · simp [setAB, HashSet.Insert, NewHashSet, HashSet.chainAt, findBin, payload, keyEql,
      HashSet.Count, uintInc, HashSet.Free]

/-! ## One element per key -/

theorem filterChain_sublist (f : Option α → Option α → Bool) (data : Option α)
    (c : Chain α) : (filterChain f data c).Sublist c := by
  cases c with
  | nil => exact List.Sublist.refl _
  | cons b next =>
    by_cases hb : f b.elt data = true
    · simp only [filterChain, hb, if_true]
      exact List.filter_sublist _
    · simp only [filterChain, hb, Bool.false_eq_true, if_false]
      exact List.nil_sublist _

theorem findBin_eq_nil_iff {eql : Option α → Option α → Bool} {ptr : Option α}
    {c : Chain α} : findBin eql ptr c = [] ↔ ∀ b ∈ c, eql ptr b.elt = false := by
  constructor
  · intro h b hb
    by_contra hne
    have hbt : eql ptr b.elt = true := by simpa using hne
    obtain ⟨bin, next, hf, _, _⟩ := findBin_cons_of_mem ⟨b, hb, hbt⟩
    rw [h] at hf
    cases hf
  · exact findBin_eq_nil

theorem keys_nodup_of_sublist {key : Option α → Option α} {c d : Chain α}
    (hsub : d.Sublist c) (hc : (c.map (fun b => key b.elt)).Nodup) :
    (d.map (fun b => key b.elt)).Nodup :=
  hc.sublist (hsub.map _)

/-- Invariant behind C13: `eql` stays key equality and the keys of every chain
are pairwise distinct. -/
theorem KeyedReachable.keys_nodup {n : Nat} {key : Option α → Option α} {s : HashSet α}
    (hr : KeyedReachable n key s) :
    (∀ p e, s.eql p e = true ↔ p = key e) ∧
      ∀ j, ((s.chainAt j).map (fun b => key b.elt)).Nodup := by
  induction hr with
  | new eql heql =>
    exact ⟨heql, fun j => by simp [NewHashSet, HashSet.chainAt]⟩
  | @insert s h ptr trans data hkey _ ih =>
    obtain ⟨heql, hnd⟩ := ih
    cases hf : findBin s.eql ptr (s.chainAt h) with
    | cons bin next => rw [Insert_of_found hf]; exact ⟨heql, hnd⟩
    | nil =>
      obtain ⟨_, _, h3, h4, _⟩ := Insert_of_absent n trans data hf
      refine ⟨by rw [h4]; exact heql, fun j => ?_⟩
      by_cases hj : j = h
      · subst hj
        rw [chainAt_of_insert h3, List.map_cons, List.nodup_cons]
        refine ⟨?_, hnd j⟩
        intro hmem
        obtain ⟨b, hb, hbk⟩ := List.mem_map.1 hmem
        have hfalse := findBin_eq_nil_iff.1 hf b hb
        have htrue : s.eql ptr b.elt = true := (heql ptr b.elt).2 (by
          show ptr = key b.elt
          rw [hbk]; exact hkey.symm)
        rw [htrue] at hfalse
        cases hfalse
      · have : (s.Insert n h ptr trans data).2.chainAt j = s.chainAt j := by
          simp [HashSet.chainAt, h3, AList.lookup_insert_ne hj]
        rw [this]; exact hnd j
  | @remove s h ptr _ ih =>
    obtain ⟨heql, hnd⟩ := ih
    obtain ⟨before, hsplit, _, hw⟩ := findBin_split s.eql ptr (s.chainAt h)
    cases hf : findBin s.eql ptr (s.chainAt h) with
    | nil => rw [Remove_of_absent hf]; exact ⟨heql, hnd⟩
    | cons bin next =>
      rw [hf] at hw hsplit
      obtain ⟨_, _, h3, _, h5, _⟩ := Remove_of_found hw
      refine ⟨by rw [h5]; exact heql, fun j => ?_⟩
      by_cases hj : j = h
      · subst hj
        cases before with
        | nil =>
          have : (s.Remove j ptr).2.chainAt j = [] := by simp [HashSet.chainAt, h3]
          rw [this]; exact List.nodup_nil
        | cons x xs =>
          have hc : (s.Remove j ptr).2.chainAt j = (x :: xs) ++ next := chainAt_of_insert h3
          rw [hc]
          apply keys_nodup_of_sublist _ (hnd j)
          rw [hsplit]
          exact List.Sublist.append (List.Sublist.refl _) (List.sublist_cons_self _ _)
      · have : (s.Remove h ptr).2.chainAt j = s.chainAt j := by
          cases before with
          | nil => simp [HashSet.chainAt, h3, AList.lookup_erase_ne hj]
          | cons x xs => simp [HashSet.chainAt, h3, AList.lookup_insert_ne hj]
        rw [this]; exact hnd j
  | @filter s f data _ ih =>
    obtain ⟨heql, hnd⟩ := ih
    refine ⟨by rw [Filter_eql]; exact heql, fun j => ?_⟩
    rw [Filter_chainAt]
    exact keys_nodup_of_sublist (filterChain_sublist f data _) (hnd j)

/-- C13: with `eql` the key equality of `key` and every `Insert` storing a
payload whose key is its probe key, in every state built from `NewHashSet` by
`Insert`, `Remove` and `Filter`, for every hash `h` and probe key `p` at most
one element of the chain at `h` satisfies `eql(p, .)`. -/
theorem at_most_one_match (n : Nat) (key : Option α → Option α) (s : HashSet α)
    (hr : KeyedReachable n key s) (h : HashValue) (p : Option α) :
    ((s.chainAt h).filter (fun b => s.eql p b.elt)).length ≤ 1 := by
  obtain ⟨heql, hnd⟩ := hr.keys_nodup
  have hn := hnd h
  generalize s.chainAt h = c at hn
  induction c with
  | nil => simp
  | cons b next ih =>
    rw [List.map_cons, List.nodup_cons] at hn
    by_cases hb : s.eql p b.elt = true
    · have hnone : next.filter (fun x => s.eql p x.elt) = [] := by
        rw [List.filter_eq_nil_iff]
        intro x hx hxe
        have h1 : p = key b.elt := (heql p b.elt).1 hb
        have h2 : p = key x.elt := (heql p x.elt).1 hxe
        exact hn.1 (List.mem_map.2 ⟨x, hx, by rw [← h1, ← h2]⟩)
      simp [List.filter_cons, hb, hnone]
    · have := ih hn.2
      simpa [List.filter_cons, hb] using this

/-! ## Shapes -/

/-- C14: `Order()` is 0 for a shape whose class is a circle, 1 for a segment,
2 for a polygon and 3 for any other class, whatever the other fields of the
shapes are; so a circle orders before a segment and a segment before a
polygon. -/
theorem Order_by_variant {V F Ref : Type} (sc ss sp so : Shape V F Ref) (c : Circle V F)
    (seg : Segment V F) (poly : PolyShape V) (hc : sc.class_ = .circle c)
    (hs : ss.class_ = .segment seg) (hp : sp.class_ = .polyShape poly)
    (ho : so.class_ = .other) :
    sc.Order = 0 ∧ ss.Order = 1 ∧ sp.Order = 2 ∧ so.Order = 3 ∧
      sc.Order < ss.Order ∧ ss.Order < sp.Order := by
  simp [Shape.Order, hc, hs, hp, ho]

/-- C15: for a polygon with at least one vertex whose plane sequence has at
least `count` entries, `Point(i)` is the support point of vertex `i` with
index `i` when `i < count`, and otherwise the support point of vertex 0 with
index 0, which is `Point(0)`. -/
theorem Point_polygon {V F Ref SP : Type} (NewSupportPoint : V → Nat → SP) (VectorZero : V)
    (s : Shape V F Ref) (poly : PolyShape V) (i : Nat) (hclass : s.class_ = .polyShape poly)
    (hcount : 1 ≤ poly.count) (hlen : poly.count ≤ poly.planes.length) :
    (i < poly.count → ∃ plane, poly.planes[i]? = some plane ∧
        s.Point NewSupportPoint VectorZero i = some (NewSupportPoint plane.v0 i)) ∧
      (poly.count ≤ i → ∃ plane, poly.planes[0]? = some plane ∧
        s.Point NewSupportPoint VectorZero i = some (NewSupportPoint plane.v0 0) ∧
        s.Point NewSupportPoint VectorZero i = s.Point NewSupportPoint VectorZero 0) := by
  constructor
  · intro hi
    have hlt : i < poly.planes.length := by omega
    refine ⟨poly.planes[i], List.getElem?_eq_getElem hlt, ?_⟩
    simp [Shape.Point, hclass, hi, List.getElem?_eq_getElem hlt]
  · intro hi
    have hlt : 0 < poly.planes.length := by omega
    have hni : ¬ i < poly.count := by omega
    have h0 : 0 < poly.count := by omega
    refine ⟨poly.planes[0], List.getElem?_eq_getElem hlt, ?_, ?_⟩
    · simp [Shape.Point, hclass, hni, List.getElem?_eq_getElem hlt]
    · simp [Shape.Point, hclass, hni, h0, List.getElem?_eq_getElem hlt]

/-- C16: for the polygon with no vertex, `Point(i)` indexes an empty plane
sequence at 0 for every `i`: the access is out of range and no support point
is returned. -/
theorem Point_empty_polygon_fails {SP : Type} (NewSupportPoint : Int × Int → Nat → SP)
    (VectorZero : Int × Int) (i : Nat) :
    (shapeOf (.polyShape polyEmpty)).Point NewSupportPoint VectorZero i = none := by
  simp [Shape.Point, shapeOf, polyEmpty]

/-- C17: for a circle `Point(i)` is the support point of the cached center `tc`
with index 0, for every `i`; for a segment `Point(0)` is the support point of
`ta` with index 0 and `Point(1)` that of `tb` with index 1, and changing the
radius of the segment changes no result of `Point`. -/
theorem Point_circle_segment {V F Ref SP : Type} (NewSupportPoint : V → Nat → SP)
    (VectorZero : V) (sc ss : Shape V F Ref) (c : Circle V F) (seg : Segment V F)
    (hc : sc.class_ = .circle c) (hs : ss.class_ = .segment seg) :
    (∀ i, sc.Point NewSupportPoint VectorZero i = some (NewSupportPoint c.tc 0)) ∧
      ss.Point NewSupportPoint VectorZero 0 = some (NewSupportPoint seg.ta 0) ∧
      ss.Point NewSupportPoint VectorZero 1 = some (NewSupportPoint seg.tb 1) ∧
      ∀ (r : F) (j : Nat),
        ({ ss with class_ := .segment { seg with r := r } } : Shape V F Ref).Point
            NewSupportPoint VectorZero j =
          ss.Point NewSupportPoint VectorZero j := by
  refine ⟨fun i => ?_, ?_, ?_, fun r j => ?_⟩
  · simp [Shape.Point, hc]
  · simp [Shape.Point, hs]
  · simp [Shape.Point, hs]
  · simp [Shape.Point, hs]

/-! ## Further theorems at concrete inputs -/

theorem setAB_reachable : Reachable 2 (setAB 2) :=
  Reachable.insert 1 (some 20) none (some 20)
    (Reachable.insert 1 (some 10) none (some 10) (Reachable.new keyEql))

theorem setAB_chainAt (j : HashValue) :
    (setAB 2).chainAt j = if j = 1 then [⟨some 20, 1⟩, ⟨some 10, 1⟩] else [] := by
  by_cases hj : j = 1
  · subst hj; decide
  · have hnone : ∀ c : Chain Nat,
        AList.lookup j (AList.singleton (1 : HashValue) c :
          AList (fun _ : HashValue => Chain Nat)) = none := by
      intro c
      rw [AList.lookup_eq_none, AList.mem_keys, AList.keys_singleton]
      simpa using hj
    simp [setAB, HashSet.Insert, NewHashSet, HashSet.chainAt, findBin, payload, keyEql, hj,
      hnone]

/-- Instance of C11: the set holding `B, A` has counter 2 and two live
elements; filtering with `notB`. -/
theorem Filter_Count_witness :
    (setAB 2).Count = (setAB 2).Each.length ∧
      ((setAB 2).Each.filter (fun e => !notB e none)).length ≤ (setAB 2).Count ∧
      ((setAB 2).Filter notB none).Count +
          ((setAB 2).Each.filter (fun e => !notB e none)).length = (setAB 2).Count ∧
      ((∀ e ∈ (setAB 2).Each, notB e none = true) →
        ((setAB 2).Filter notB none).Count = (setAB 2).Count) :=
  have hcount : (setAB 2).Count = (setAB 2).Each.length := by decide
  ⟨hcount, Filter_Count (setAB 2) notB none hcount⟩

/-- Instance of C13: the set holding `B, A`, the key of an element being the
element. -/
theorem at_most_one_match_witness :
    KeyedReachable 2 id (setAB 2) ∧
      (((setAB 2).chainAt 1).filter (fun b => (setAB 2).eql (some 10) b.elt)).length ≤ 1 :=
  have hr : KeyedReachable 2 id (setAB 2) :=
    KeyedReachable.insert 1 (some 20) none (some 20) rfl
      (KeyedReachable.insert 1 (some 10) none (some 10) rfl
        (KeyedReachable.new keyEql (fun p e => by simp [keyEql])))
  ⟨hr, at_most_one_match 2 id (setAB 2) hr 1 (some 10)⟩

/-- Instance of C18: the set holding `B, A`. -/
theorem pool_holds_no_payload_witness :
    Reachable 2 (setAB 2) ∧ (∀ b ∈ (setAB 2).pooledBins, b.elt = none) ∧
      ((setAB 2).GetUnusedBin 2).1.elt = none ∧
      ∀ b ∈ ((setAB 2).GetUnusedBin 2).2.pooledBins, b.elt = none :=
  ⟨setAB_reachable, pool_holds_no_payload 2 (setAB 2) setAB_reachable⟩

/-- Instance of C19: in the set holding `B, A` the filter function `notA`
accepts the head `B`; every other hash has the nil chain. -/
theorem Filter_head_accepted_witness :
    (∀ j, (∃ b next, (setAB 2).chainAt j = b :: next ∧ notA b.elt none = true) ∨
        (∀ b ∈ (setAB 2).chainAt j, notA b.elt none = false)) ∧
      (∀ j, ((setAB 2).Filter notA none).chainAt j =
        ((setAB 2).chainAt j).filter (fun b => notA b.elt none)) ∧
      ((setAB 2).Count = (setAB 2).Each.length →
        ((setAB 2).Filter notA none).Count =
            ((setAB 2).Each.filter (fun e => notA e none)).length ∧
          ((setAB 2).Filter notA none).Each.length =
            ((setAB 2).Each.filter (fun e => notA e none)).length) :=
  have hhead : ∀ j, (∃ b next, (setAB 2).chainAt j = b :: next ∧ notA b.elt none = true) ∨
      (∀ b ∈ (setAB 2).chainAt j, notA b.elt none = false) := by
    intro j
    rw [setAB_chainAt]
    by_cases hj : j = 1
    · left
      exact ⟨⟨some 20, 1⟩, [⟨some 10, 1⟩], by simp [hj], by decide⟩
    · right
      simp [hj]
  ⟨hhead, Filter_head_accepted (setAB 2) notA none hhead⟩

theorem setAB_inRange : ReachableInRange 2 (setAB 2) :=
  ReachableInRange.insert 1 (some 20) none (some 20) (fun _ => by decide)
    (ReachableInRange.insert 1 (some 10) none (some 10) (fun _ => by decide)
      (ReachableInRange.new keyEql))

/-- Instance of C20: the set holding `B, A`. -/
theorem counter_never_wraps_witness :
    ReachableInRange 2 (setAB 2) ∧ (setAB 2).liveBins ≤ (setAB 2).Count ∧
      (∀ h k, (∃ b ∈ (setAB 2).chainAt h, (setAB 2).eql k b.elt = true) →
        0 < (setAB 2).Count ∧ ((setAB 2).Remove h k).2.Count + 1 = (setAB 2).Count) ∧
      (∀ h k, (∀ b ∈ (setAB 2).chainAt h, (setAB 2).eql k b.elt = false) →
        ((setAB 2).Remove h k).2.Count = (setAB 2).Count) ∧
      (∀ f data, ((setAB 2).Each.filter (fun e => !f e data)).length ≤ (setAB 2).Count ∧
        ((setAB 2).Filter f data).Count +
          ((setAB 2).Each.filter (fun e => !f e data)).length = (setAB 2).Count) :=
  ⟨setAB_inRange, counter_never_wraps 2 (setAB 2) setAB_inRange⟩

/-- Instance of C14: a circle, a segment, a polygon and a shape of another
class. -/
theorem Order_by_variant_witness :
    (shapeOf (.circle circleC)).class_ = .circle circleC ∧
      (shapeOf (.segment segmentS)).class_ = .segment segmentS ∧
      (shapeOf (.polyShape polyP)).class_ = .polyShape polyP ∧
      (shapeOf .other).class_ = .other ∧
      (shapeOf (.circle circleC)).Order = 0 ∧ (shapeOf (.segment segmentS)).Order = 1 ∧
      (shapeOf (.polyShape polyP)).Order = 2 ∧ (shapeOf .other).Order = 3 ∧
      (shapeOf (.circle circleC)).Order < (shapeOf (.segment segmentS)).Order ∧
      (shapeOf (.segment segmentS)).Order < (shapeOf (.polyShape polyP)).Order :=
  ⟨rfl, rfl, rfl, rfl,
    Order_by_variant (shapeOf (.circle circleC)) (shapeOf (.segment segmentS))
      (shapeOf (.polyShape polyP)) (shapeOf .other) circleC segmentS polyP rfl rfl rfl rfl⟩

/-- Instance of C15: the polygon of two vertices at index 5. -/
theorem Point_polygon_witness :
    (shapeOf (.polyShape polyP)).class_ = .polyShape polyP ∧ 1 ≤ polyP.count ∧
      polyP.count ≤ polyP.planes.length ∧
      (5 < polyP.count → ∃ plane, polyP.planes[5]? = some plane ∧
        (shapeOf (.polyShape polyP)).Point Prod.mk (0, 0) 5 = some (plane.v0, 5)) ∧
      (polyP.count ≤ 5 → ∃ plane, polyP.planes[0]? = some plane ∧
        (shapeOf (.polyShape polyP)).Point Prod.mk (0, 0) 5 = some (plane.v0, 0) ∧
        (shapeOf (.polyShape polyP)).Point Prod.mk (0, 0) 5 =
          (shapeOf (.polyShape polyP)).Point Prod.mk (0, 0) 0) :=
  ⟨rfl, by decide, by decide,
    Point_polygon Prod.mk (0, 0) (shapeOf (.polyShape polyP)) polyP 5 rfl (by decide)
      (by decide)⟩

/-- Instance of C17: the circle `circleC` and the segment `segmentS`. -/
theorem Point_circle_segment_witness :
    (shapeOf (.circle circleC)).class_ = .circle circleC ∧
      (shapeOf (.segment segmentS)).class_ = .segment segmentS ∧
      (∀ i, (shapeOf (.circle circleC)).Point Prod.mk (0, 0) i = some (circleC.tc, 0)) ∧
      (shapeOf (.segment segmentS)).Point Prod.mk (0, 0) 0 = some (segmentS.ta, 0) ∧
      (shapeOf (.segment segmentS)).Point Prod.mk (0, 0) 1 = some (segmentS.tb, 1) ∧
      ∀ (r : Int) (j : Nat),
        ({ shapeOf (.segment segmentS) with
            class_ := .segment { segmentS with r := r } } :
            Shape (Int × Int) Int Unit).Point Prod.mk (0, 0) j =
          (shapeOf (.segment segmentS)).Point Prod.mk (0, 0) j :=
  ⟨rfl, rfl,
    Point_circle_segment Prod.mk (0, 0) (shapeOf (.circle circleC))
      (shapeOf (.segment segmentS)) circleC segmentS rfl rfl⟩

/-! ## The counter at the ends of the `uint` range -/

/-- Every counter value is reached with an empty table: insert `A` and call
`Free`, as often as needed. -/
theorem reachable_counter (n k : Nat) :
    ∃ s : HashSet Nat, Reachable n s ∧ s.entries = k % 2 ^ 64 ∧ s.table = ∅ ∧
      s.eql = keyEql := by
  induction k with
  | zero => exact ⟨NewHashSet keyEql, Reachable.new keyEql, rfl, rfl, rfl⟩
  | succ k ih =>
    obtain ⟨s, hr, he, ht, hq⟩ := ih
    have hc : s.chainAt 1 = [] := by simp [HashSet.chainAt, ht]
    have hf : findBin s.eql (some 10) (s.chainAt 1) = [] := by rw [hc]; rfl
    obtain ⟨_, h2, _, h4, _⟩ := Insert_of_absent n none (some 10) hf
    refine ⟨(s.Insert n 1 (some 10) none (some 10)).2.Free,
      Reachable.free (Reachable.insert 1 (some 10) none (some 10) hr), ?_, rfl, ?_⟩
    · show (s.Insert n 1 (some 10) none (some 10)).2.entries = (k + 1) % 2 ^ 64
      rw [h2, he]
      unfold uintInc
      omega
    · show (s.Insert n 1 (some 10) none (some 10)).2.eql = keyEql
      rw [h4, hq]

/-- A state with counter 0 and the live element `A` is reached: the counter is
brought to the largest `uint` and `A` is inserted. -/
theorem reachable_wrapped (n : Nat) :
    ∃ s : HashSet Nat, Reachable n s ∧ s.entries = 0 ∧
      s.chainAt 1 = [{ elt := some 10, hash := 1 }] ∧ s.liveBins = 1 ∧ s.eql = keyEql := by
  obtain ⟨s, hr, he, ht, hq⟩ := reachable_counter n (2 ^ 64 - 1)
  have hc : s.chainAt 1 = [] := by simp [HashSet.chainAt, ht]
  have hf : findBin s.eql (some 10) (s.chainAt 1) = [] := by rw [hc]; rfl
  obtain ⟨_, h2, h3, h4, _⟩ := Insert_of_absent n none (some 10) hf
  have hl := liveBins_insert h3
  have hs0 : s.liveBins = 0 := by simp [HashSet.liveBins, chainsLength, ht]
  refine ⟨(s.Insert n 1 (some 10) none (some 10)).2,
    Reachable.insert 1 (some 10) none (some 10) hr, ?_, ?_, ?_, ?_⟩
  · rw [h2, he]
    decide
  · rw [chainAt_of_insert h3, hc]
    rfl
  · rw [hc] at hl
    simp only [List.length_cons, List.length_nil] at hl
    omega
  · rw [h4, hq]

theorem Remove_of_wrapped {s : HashSet Nat} (he : s.entries = 0)
    (hc : s.chainAt 1 = [{ elt := some 10, hash := 1 }]) (hq : s.eql = keyEql) :
    (s.Remove 1 (some 10)).2.entries = maxUint := by
  have hw : removeWalk s.eql (some 10) [] (s.chainAt 1) =
      ([], [{ elt := some 10, hash := 1 }]) := by
    rw [hc, hq]
    simp [removeWalk, keyEql]
  obtain ⟨_, h2, _, _, _, _⟩ := Remove_of_found hw
  rw [h2, he]
  rfl

/-- C6 as stated fails: in `setFull`, whose counter is the largest `uint` and
whose table is empty, `Insert(1, A, nil, A)` adds `A` and `Count()` becomes 0,
not the counter plus one; and a state built by the exported operations shows
the same. -/
theorem Insert_absent_wraps_at_max :
    (∀ b ∈ setFull.chainAt 1, setFull.eql (some 10) b.elt = false) ∧
      setFull.Count = 2 ^ 64 - 1 ∧
      (setFull.Insert 2 1 (some 10) none (some 10)).2.Count = 0 ∧
      (setFull.Insert 2 1 (some 10) none (some 10)).2.Count ≠ setFull.Count + 1 ∧
      ∃ s : HashSet Nat, Reachable 2 s ∧
        (∀ b ∈ s.chainAt 1, s.eql (some 10) b.elt = false) ∧
        (s.Insert 2 1 (some 10) none (some 10)).2.Count ≠ s.Count + 1 := by
  refine ⟨by decide, by decide, by decide, by decide, ?_⟩
  obtain ⟨s, hr, he, ht, hq⟩ := reachable_counter 2 (2 ^ 64 - 1)
  have hc : s.chainAt 1 = [] := by simp [HashSet.chainAt, ht]
  have hf : findBin s.eql (some 10) (s.chainAt 1) = [] := by rw [hc]; rfl
  obtain ⟨_, h2, _, _, _⟩ := Insert_of_absent 2 none (some 10) hf
  have habs : ∀ b ∈ s.chainAt 1, s.eql (some 10) b.elt = false := by
    intro b hb
    rw [hc] at hb
    cases hb
  refine ⟨s, hr, habs, ?_⟩
  simp only [HashSet.Count, h2, he]
  decide

/-- C8 as stated fails: in `setWrapped`, whose counter is 0 while the chain of
hash 1 holds `A`, `Remove(1, A)` returns `A` and `Count()` becomes the largest
`uint` instead of dropping by one; and a state built by the exported operations
shows the same. -/
theorem Remove_present_wraps_at_zero :
    (∃ b ∈ setWrapped.chainAt 1, setWrapped.eql (some 10) b.elt = true) ∧
      setWrapped.Count = 0 ∧ (setWrapped.Remove 1 (some 10)).1 = some 10 ∧
      (setWrapped.Remove 1 (some 10)).2.Count = 2 ^ 64 - 1 ∧
      (setWrapped.Remove 1 (some 10)).2.Count + 1 ≠ setWrapped.Count ∧
      ∃ s : HashSet Nat, Reachable 2 s ∧
        (∃ b ∈ s.chainAt 1, s.eql (some 10) b.elt = true) ∧
        (s.Remove 1 (some 10)).2.Count + 1 ≠ s.Count := by
  refine ⟨⟨⟨some 10, 1⟩, by decide, by decide⟩, by decide, by decide, by decide, by decide, ?_⟩
  obtain ⟨s, hr, he, hc, _, hq⟩ := reachable_wrapped 2
  refine ⟨s, hr, ⟨⟨some 10, 1⟩, by rw [hc]; exact List.mem_cons_self _ _, by rw [hq]; rfl⟩, ?_⟩
  simp only [HashSet.Count, Remove_of_wrapped he hc hq, he]
  decide

/-- C20 as stated fails: a state built by `Insert` and `Free` has counter 0
with one live bin, and `Remove` of that bin wraps the counter around to the
largest `uint`.  The set `setWrapped` has the same counter and chain. -/
theorem counter_wraps_after_overflow :
    (setWrapped.Count = 0 ∧ setWrapped.liveBins = 1) ∧
      ∃ s : HashSet Nat, Reachable 2 s ∧ s.Count < s.liveBins ∧
        (∃ b ∈ s.chainAt 1, s.eql (some 10) b.elt = true) ∧
        s.Count = 0 ∧ (s.Remove 1 (some 10)).2.Count = 2 ^ 64 - 1 := by
  refine ⟨⟨by decide, by decide⟩, ?_⟩
  obtain ⟨s, hr, he, hc, hl, hq⟩ := reachable_wrapped 2
  refine ⟨s, hr, ?_, ⟨⟨some 10, 1⟩, by rw [hc]; exact List.mem_cons_self _ _,
    by rw [hq]; rfl⟩, he, ?_⟩
  · simp only [HashSet.Count, he, hl]
    decide
  · simp only [HashSet.Count, Remove_of_wrapped he hc hq]
    rfl

end Physics
